import Mathlib

/-!
Verification of the DAG-orchestration core of the osapi-sdk repository
(`pkg/orchestrator`): plan validation (`plan.go`), wave decomposition
(`levelize`, `runner.go`), and the wave-by-wave runner (`runner.go`).

Modelling conventions, stated once here:

* Tasks reference their dependencies by Go pointer identity.  Validated
  plans have unique task names and every dependency inside the plan, so
  dependencies are embedded as the list of dependency task names
  (`Task.deps : List String`), and lookup of the dependency object is
  `findTask`.  The closedness side condition (`closedB`) states that
  every dependency name belongs to a task of the plan, which mirrors the
  fact that a Go dependency pointer always points at a real task.
* Go maps (`results`, `failed`, `color`, `level`) are association lists
  keyed by the task name, with the Go zero value as default.
* Wall-clock durations (`time.Since`) are not modelled; the `Duration`
  fields of `TaskResult` and `Report` are dropped.
* A task body `TaskFn` is a Go closure, possibly stateful across retry
  attempts; it is embedded as a pure function of the attempt index
  (`Nat → Except String Result`).  Go `error` values are `String`s.
* The HTTP job executor behind `executeOp` (`client.Job.Create` +
  polling) is the external operation-executor collaborator; the plan's
  client is embedded as an abstract function `Op → Except String Result`
  (`none` models a nil client, which `executeOp` rejects).
* Lifecycle hooks: the runner fires each hook at a fixed program point
  when it is set.  The model records every firing point in an `Event`
  trace (equivalently: a hooks record with every callback present).
* `runLevel` launches the tasks of one wave concurrently and waits.
  The model executes them in wave order (one legal interleaving).
  Tasks of one wave are never dependency-related, and the shared state
  (`results`/`failed`) is only consulted about dependencies, which were
  completed in earlier waves, so the recorded statuses agree with the
  concurrent code for the properties proved here; guards receive the
  results map of this interleaving.
* Recursions that Go performs on the heap graph (`detectCycle.visit`,
  `levelize.computeLevel`) do not terminate structurally; they are
  embedded with an explicit fuel argument, `none` marking fuel
  exhaustion.  Fuel sufficiency for the fuel actually supplied is
  proved below, so `none` only occurs where the Go code would diverge
  or follow a dangling dependency pointer.
-/

namespace Orch

/-- `Status` from result.go: outcome of a task execution. -/
inductive Status where
  | pending
  | running
  | changed
  | unchanged
  | skipped
  | failed
deriving DecidableEq, Repr

/-- `Result` from result.go: outcome of a single task body, a changed
flag plus an opaque data payload. -/
structure Result where
  changed : Bool
  data : List (String × String) := []
deriving DecidableEq, Repr

/-- `TaskResult` from result.go (the wall-clock `Duration` field is not
modelled).  Go `error` is an optional string. -/
structure TaskResult where
  name : String
  status : Status
  changed : Bool := false
  error : Option String := none
deriving DecidableEq, Repr

/-- `ErrorStrategy` from options.go. -/
structure ErrorStrategy where
  kind : String
  retryCount : Nat := 0
deriving DecidableEq, Repr

/-- `StopAll` from options.go. -/
def StopAll : ErrorStrategy := { kind := "stop_all" }

/-- `Continue` from options.go. -/
def Continue : ErrorStrategy := { kind := "continue" }

/-- `Retry` from options.go. -/
def Retry (n : Nat) : ErrorStrategy := { kind := "retry", retryCount := n }

/-- `Op` from task.go: a declarative SDK operation. -/
structure Op where
  operation : String
  target : String := ""
  params : List (String × String) := []
deriving DecidableEq, Repr

/-- `Task` from task.go.  The dependency pointers are embedded as the
dependency names, the functional body as an attempt-indexed function,
and the guard as a predicate on the results map. -/
structure Task where
  name : String
  op : Option Op := none
  fn : Option (Nat → Except String Result) := none
  deps : List String := []
  guard : Option (List (String × Result) → Bool) := none
  requiresChange : Bool := false
  errorStrategy : Option ErrorStrategy := none

/-- `PlanConfig` from options.go (verbose output plumbing dropped; the
hooks record is modelled by the event trace, see the module comment). -/
structure PlanConfig where
  onErrorStrategy : ErrorStrategy

/-- `Plan` from plan.go.  The OSAPI client is abstracted to the
operation-executor function it provides to `executeOp`. -/
structure Plan where
  client : Option (Op → Except String Result) := none
  tasks : List Task := []
  config : PlanConfig

/-- A `PlanOption` from options.go is a function updating the config. -/
def PlanOption := PlanConfig → PlanConfig

/-- `OnError` from options.go. -/
def OnError (strategy : ErrorStrategy) : PlanOption :=
  fun cfg => { cfg with onErrorStrategy := strategy }

/-- `NewPlan` from plan.go: default error strategy `StopAll`, then the
options applied in order. -/
def NewPlan (client : Option (Op → Except String Result))
    (opts : List PlanOption) : Plan :=
  { client := client
    tasks := []
    config := opts.foldl (fun cfg opt => opt cfg) { onErrorStrategy := StopAll } }

/-- Lifecycle events, one constructor per hook call site of runner.go.
Task arguments are identified by task name. -/
inductive Event where
  | beforePlan (explain : String)
  | afterPlan (tasks : List TaskResult)
  | beforeLevel (level : Nat) (names : List String) (parallel : Bool)
  | afterLevel (level : Nat) (results : List TaskResult)
  | beforeTask (name : String)
  | afterTask (name : String) (result : TaskResult)
  | onRetry (name : String) (attempt : Nat) (err : String)
  | onSkip (name : String) (reason : String)
deriving DecidableEq, Repr

/-- Shared runner state (runner.go `runner` struct): the results map
and the failed set, both keyed by task name. -/
structure RState where
  results : List (String × Result) := []
  failed : List String := []

/-- Lookup in the results map (`Results.Get` from result.go). -/
def resultsGet (rs : List (String × Result)) (n : String) : Option Result :=
  (rs.find? (fun e => e.1 == n)).map (fun e => e.2)

/-- `runner.effectiveStrategy`: per-task override if set, else the
plan-level default. -/
def effectiveStrategy (p : Plan) (t : Task) : ErrorStrategy :=
  t.errorStrategy.getD p.config.onErrorStrategy

/-- `runner.executeOp`: nil client is an error; otherwise the call is
delegated to the external job executor the client provides.  A task
with neither body (impossible via `NewTask`/`NewTaskFunc`) is mapped to
an error where Go would dereference nil. -/
def executeOp (p : Plan) (op : Option Op) : Except String Result :=
  match op with
  | none => Except.error "nil op"
  | some o =>
    match p.client with
    | none => Except.error ("op task \"" ++ o.operation ++ "\" requires an OSAPI client")
    | some exec => exec o

/-- The retry loop of `runner.runTask` (runner.go:291-305): run the
body for attempts `attempt, attempt+1, ...` while `remaining` attempts
are left, stopping at the first success; after a failed attempt that is
not the last, fire `on-retry` with the 1-based attempt number.  Returns
the final outcome, the `on-retry` events fired, and the number of body
invocations. -/
def runAttempts (body : Nat → Except String Result) (tname : String) :
    Nat → Nat → Except String Result × List Event × Nat
  | _, 0 => (Except.error "no attempts", [], 0)
  | attempt, 1 => (body attempt, [], 1)
  | attempt, remaining + 2 =>
    match body attempt with
    | Except.ok res => (Except.ok res, [], 1)
    | Except.error e =>
      let rest := runAttempts body tname (attempt + 1) (remaining + 1)
      (rest.1, Event.onRetry tname (attempt + 1) e :: rest.2.1, rest.2.2 + 1)

/-- Output of one `runner.runTask` call: the recorded `TaskResult`, the
updated shared state, the events fired, and how many times the task
body was invoked. -/
structure TaskStep where
  tr : TaskResult
  st : RState
  evs : List Event
  calls : Nat

/-- `max-attempts` as computed at runner.go:280-284. -/
def maxAttemptsOf (p : Plan) (t : Task) : Nat :=
  if (effectiveStrategy p t).kind == "retry"
  then (effectiveStrategy p t).retryCount + 1 else 1

/-- The dependency-failure gate condition (runner.go:210-227): some
direct dependency is in the failed set. -/
def depFailed (st : RState) (t : Task) : Bool :=
  t.deps.any (fun d => st.failed.contains d)

/-- The change-gate condition (runner.go:229-256): no direct dependency
recorded a changed result. -/
def noDepChanged (st : RState) (t : Task) : Bool :=
  !(t.deps.any (fun d =>
    match resultsGet st.results d with
    | some r => r.changed
    | none => false))

/-- The custom-guard condition (runner.go:258-275): a guard is set and
returns false on the current results map. -/
def guardBlocks (st : RState) (t : Task) : Bool :=
  match t.guard with
  | some g => !(g st.results)
  | none => false

/-- A skipped `TaskResult` as recorded by runner.go (zero-value
`Changed`, no error), with its `on-skip` and `after-task` events. -/
def skipStep (st : RState) (t : Task) (reason : String) : TaskStep :=
  let tr : TaskResult := { name := t.name, status := Status.skipped }
  { tr := tr
    st := st
    evs := [Event.onSkip t.name reason, Event.afterTask t.name tr]
    calls := 0 }

/-- The body a retry-loop iteration runs (runner.go:292-296): the
functional body if set, else the operation executor. -/
def taskBody (p : Plan) (t : Task) : Nat → Except String Result :=
  fun a =>
    match t.fn with
    | some f => f a
    | none => executeOp p t.op

/-- The execution part of `runner.runTask` (runner.go:277-345), after
the three skip gates have passed: `before-task`, the retry loop, then
failure or success recording. -/
def runBody (p : Plan) (st : RState) (t : Task) : TaskStep :=
  let loopOut := runAttempts (taskBody p t) t.name 0 (maxAttemptsOf p t)
  match loopOut.1 with
  | Except.error e =>
    let tr : TaskResult := { name := t.name, status := Status.failed, error := some e }
    { tr := tr
      st := { st with failed := t.name :: st.failed }
      evs := Event.beforeTask t.name :: loopOut.2.1 ++ [Event.afterTask t.name tr]
      calls := loopOut.2.2 }
  | Except.ok res =>
    let status := if res.changed then Status.changed else Status.unchanged
    let tr : TaskResult := { name := t.name, status := status, changed := res.changed }
    { tr := tr
      st := { st with results := (t.name, res) :: st.results }
      evs := Event.beforeTask t.name :: loopOut.2.1 ++ [Event.afterTask t.name tr]
      calls := loopOut.2.2 }

/-- `runner.runTask` (runner.go:203-345): dependency-failure gate (the
skipped task is also put into the failed set), then change gate, then
custom guard, then the execution part. -/
def runTask (p : Plan) (st : RState) (t : Task) : TaskStep :=
  if depFailed st t then
    let s := skipStep st t "dependency failed"
    { s with st := { st with failed := t.name :: st.failed } }
  else if t.requiresChange && noDepChanged st t then
    skipStep st t "no dependencies changed"
  else if guardBlocks st t then
    skipStep st t "guard returned false"
  else
    runBody p st t

/-- The task dispatch of `runner.runLevel` (runner.go:174-188), in wave
order (see the module comment on interleaving): every task runs, the
`TaskResult`s keep the wave's task order. -/
def runLevelTasks (p : Plan) (st : RState) :
    List Task → List TaskResult × RState × List Event
  | [] => ([], st, [])
  | t :: ts =>
    let s := runTask p st t
    let rest := runLevelTasks p s.st ts
    (s.tr :: rest.1, rest.2.1, s.evs ++ rest.2.2)

/-- The abort scan of `runner.runLevel` (runner.go:190-197): the first
`FAILED` result whose task's effective strategy is not `continue`
yields the returned error (that result's error). -/
def levelAbortErr (p : Plan) : List (TaskResult × Task) → Option String
  | [] => none
  | (tr, t) :: rest =>
    if tr.status == Status.failed && (effectiveStrategy p t).kind != "continue" then
      tr.error
    else
      levelAbortErr p rest

/-- Pointer-to-task lookup: the task of the plan a dependency name
refers to (dependency pointers of a validated plan always resolve). -/
def findTask (g : List Task) (n : String) : Option Task :=
  g.find? (fun t => t.name == n)

/-- Names of the plan's tasks, in insertion order. -/
def names (g : List Task) : List String :=
  g.map Task.name

/-- Every dependency name refers to a task of the plan (a Go dependency
pointer always points at a task object; membership in the same plan is
the spec's data-model invariant). -/
def closedB (g : List Task) : Bool :=
  g.all (fun t => t.deps.all (fun d => g.any (fun u => u.name == d)))

/-- Lookup in a name-keyed association list. -/
def alookup {α : Type} (m : List (String × α)) (n : String) : Option α :=
  (m.find? (fun e => e.1 == n)).map (fun e => e.2)

/-- The dependency loop inside `computeLevel` (runner.go:506-513):
fold the dependency list, computing each dependency's wave with the
supplied recursive visitor `clF` and keeping the maximum (`-1` for the
empty list). -/
def maxDepLevel
    (clF : List (String × Nat) → Task → Option (Nat × List (String × Nat)))
    (g : List Task) :
    List (String × Nat) → List String → Option (Int × List (String × Nat))
  | memo, [] => some (-1, memo)
  | memo, d :: ds =>
    match findTask g d with
    | none => none
    | some dt =>
      match clF memo dt with
      | none => none
      | some (l, memo') =>
        match maxDepLevel clF g memo' ds with
        | none => none
        | some (m, memo'') => some (max (l : Int) m, memo'')

/-- `computeLevel` from `levelize` (runner.go:501-518): memoized wave
index of a task, `1 +` the maximum wave of its dependencies, `0` for no
dependencies (`maxDep` starts at `-1`).  `fuel` bounds the recursion
depth (see the module comment); `none` is fuel exhaustion or a dangling
dependency name. -/
def computeLevel (g : List Task) :
    Nat → List (String × Nat) → Task → Option (Nat × List (String × Nat))
  | 0, _, _ => none
  | fuel + 1, memo, t =>
    match alookup memo t.name with
    | some l => some (l, memo)
    | none =>
      match maxDepLevel (computeLevel g fuel) g memo t.deps with
      | none => none
      | some (maxDep, memo') =>
        some ((maxDep + 1).toNat, (t.name, (maxDep + 1).toNat) :: memo')

/-- The outer loop of `levelize` (runner.go:520-527): compute every
task's wave through the shared memo table, tracking the maximum wave
(starting at 0). -/
def computeAll (g : List Task) (fuel : Nat) :
    List Task → List (String × Nat) → Nat → Option (List (String × Nat) × Nat)
  | [], memo, maxLevel => some (memo, maxLevel)
  | t :: ts, memo, maxLevel =>
    match computeLevel g fuel memo t with
    | none => none
    | some (l, memo') => computeAll g fuel ts memo' (if l > maxLevel then l else maxLevel)

/-- `levelize` (runner.go:495-537): group the tasks into waves
`0 .. maxLevel`; within a wave, tasks keep plan insertion order
(runner.go:531-534 appends in task order). -/
def levelize (g : List Task) : Option (List (List Task)) :=
  match computeAll g (g.length + 1) g [] 0 with
  | none => none
  | some (memo, maxLevel) =>
    some ((List.range (maxLevel + 1)).map
      (fun l => g.filter (fun t => alookup memo t.name == some l)))

/-- Validation errors of plan.go, with the Go message rendering. -/
inductive VErr where
  | dup (name : String)
  | cyc (src : String) (dst : String)
deriving DecidableEq, Repr

/-- The Go error strings of `Plan.Validate` and `Plan.detectCycle`. -/
def VErr.message : VErr → String
  | VErr.dup n => "duplicate task name: \"" ++ n ++ "\""
  | VErr.cyc u v => "cycle detected: \"" ++ u ++ "\" depends on \"" ++ v ++ "\""

/-- The duplicate-name scan of `Plan.Validate` (plan.go:144-152): first
task whose name was already seen. -/
def checkDup : List Task → List String → Option String
  | [], _ => none
  | t :: ts, seen =>
    if seen.contains t.name then some t.name else checkDup ts (t.name :: seen)

/-- DFS colors of `Plan.detectCycle` (plan.go:172-176). -/
inductive Color where
  | white
  | gray
  | black
deriving DecidableEq, Repr

/-- Color lookup with the Go zero-value default (white). -/
def getColor (c : List (String × Color)) (n : String) : Color :=
  (alookup c n).getD Color.white

/-- Color update. -/
def setColor (c : List (String × Color)) (n : String) (col : Color) :
    List (String × Color) :=
  (n, col) :: c

/-- The dependency loop inside `visit` (plan.go:184-197), with the
recursive visit of a white dependency supplied as `visitF`: a gray
dependency is a cycle error naming the edge, a black one is skipped. -/
def visitDeps
    (visitF : List (String × Color) → Task → Option (Except VErr (List (String × Color))))
    (g : List Task) (t : Task) :
    List (String × Color) → List String → Option (Except VErr (List (String × Color)))
  | c, [] => some (Except.ok c)
  | c, d :: ds =>
    match findTask g d with
    | none => none
    | some dt =>
      match getColor c d with
      | Color.gray => some (Except.error (VErr.cyc t.name d))
      | Color.black => visitDeps visitF g t c ds
      | Color.white =>
        match visitF c dt with
        | none => none
        | some (Except.error e) => some (Except.error e)
        | some (Except.ok c') => visitDeps visitF g t c' ds

/-- `visit` from `Plan.detectCycle` (plan.go:181-202): gray the task,
scan its dependencies, then blacken it.  `fuel` bounds recursion depth;
`none` is fuel exhaustion or a dangling dependency name. -/
def visit (g : List Task) :
    Nat → List (String × Color) → Task → Option (Except VErr (List (String × Color)))
  | 0, _, _ => none
  | fuel + 1, c, t =>
    match visitDeps (visit g fuel) g t (setColor c t.name Color.gray) t.deps with
    | none => none
    | some (Except.error e) => some (Except.error e)
    | some (Except.ok c') => some (Except.ok (setColor c' t.name Color.black))

/-- The outer loop of `Plan.detectCycle` (plan.go:204-210): visit every
still-white task. -/
def visitAll (g : List Task) (fuel : Nat) :
    List (String × Color) → List Task → Option (Option VErr)
  | _, [] => some none
  | c, t :: ts =>
    if getColor c t.name == Color.white then
      match visit g fuel c t with
      | none => none
      | some (Except.error e) => some (some e)
      | some (Except.ok c') => visitAll g fuel c' ts
    else
      visitAll g fuel c ts

/-- `Plan.detectCycle` (plan.go:171-213). -/
def detectCycle (g : List Task) : Option (Option VErr) :=
  visitAll g (g.length + 1) [] g

/-- `Plan.Validate` (plan.go:143-155): duplicate-name check first, then
cycle detection.  The outer `Option` is fuel/closedness (see the module
comment), the inner the validation outcome. -/
def validateTasks (g : List Task) : Option (Option VErr) :=
  match checkDup g [] with
  | some n => some (some (VErr.dup n))
  | none => detectCycle g

/-- The wave loop of `runner.run` (runner.go:42-60): fire
`before-level`, run the wave, fire `after-level`; on an abort error
return the results collected so far, otherwise continue with the next
wave.  Also returns the final shared state (an extra observation the Go
code keeps in the runner struct). -/
def runLevels (p : Plan) : Nat → RState → List (List Task) →
    List TaskResult × RState × List Event × Option String
  | _, st, [] => ([], st, [], none)
  | i, st, lvl :: rest =>
    let w := runLevelTasks p st lvl
    let before := Event.beforeLevel i (lvl.map Task.name) (decide (1 < lvl.length))
    let here := before :: w.2.2 ++ [Event.afterLevel i w.1]
    match levelAbortErr p (w.1.zip lvl) with
    | some e => (w.1, w.2.1, here, some e)
    | none =>
      let next := runLevels p (i + 1) w.2.1 rest
      (w.1 ++ next.1, next.2.1, here ++ next.2.2.1, next.2.2.2)

/-- Body kind marker of `Plan.Explain` (plan.go:95-98). -/
def taskKind (t : Task) : String :=
  match t.fn with
  | some _ => "fn"
  | none => "op"

/-- One task line of `Plan.Explain` (plan.go:100-124): name, body kind,
dependency names, and the skip-predicate flags, `only-if-changed`
before `when`. -/
def taskLine (t : Task) : String :=
  let base := "  " ++ t.name ++ " [" ++ taskKind t ++ "]"
  let withDeps :=
    if t.deps.isEmpty then base
    else base ++ " <- " ++ String.intercalate ", " t.deps
  let flags :=
    (if t.requiresChange then ["only-if-changed"] else []) ++
    (match t.guard with
     | some _ => ["when"]
     | none => [])
  (if flags.isEmpty then withDeps
   else withDeps ++ " (" ++ String.intercalate ", " flags ++ ")") ++ "\n"

/-- One wave section of `Plan.Explain` (plan.go:87-126): the `Level i`
header (with a `(parallel)` marker when the wave has more than one
task) followed by the task lines. -/
def levelSection (i : Nat) (lvl : List Task) : String :=
  (if 1 < lvl.length then "\nLevel " ++ toString i ++ " (parallel):\n"
   else "\nLevel " ++ toString i ++ ":\n") ++
  String.join (lvl.map taskLine)

/-- The text `Plan.Explain` builds for a levelized plan
(plan.go:83-128). -/
def explainLevels (g : List Task) (levels : List (List Task)) : String :=
  "Plan: " ++ toString g.length ++ " tasks, " ++ toString levels.length ++
    " levels\n" ++
  String.join (levels.enum.map (fun e => levelSection e.1 e.2))

/-- `Plan.Levels` (plan.go:134-140): validate, then levelize. -/
def planLevels (p : Plan) : Option (Except String (List (List Task))) :=
  match validateTasks p.tasks with
  | none => none
  | some (some e) => some (Except.error e.message)
  | some none =>
    match levelize p.tasks with
    | none => none
    | some ls => some (Except.ok ls)

/-- `Plan.Explain` (plan.go:77-129): renders the levelized plan, or the
validation error prefixed with `invalid plan: `. -/
def planExplain (p : Plan) : Option String :=
  match planLevels p with
  | none => none
  | some (Except.error msg) => some ("invalid plan: " ++ msg)
  | some (Except.ok levels) => some (explainLevels p.tasks levels)

/-- Output of `runner.run`: the report's task results, the event trace,
the returned error, and the final shared state. -/
structure RunOut where
  tasks : List TaskResult
  evs : List Event
  err : Option String
  st : RState

/-- `runner.run` (runner.go:32-70): levelize, fire `before-plan` with
the explain text, run the waves, fire `after-plan` with the report. -/
def runnerRun (p : Plan) : Option RunOut :=
  match levelize p.tasks with
  | none => none
  | some levels =>
    match planExplain p with
    | none => none
    | some ex =>
      let r := runLevels p 0 {} levels
      some { tasks := r.1
             evs := Event.beforePlan ex :: r.2.2.1 ++ [Event.afterPlan r.1]
             err := r.2.2.2
             st := r.2.1 }

/-- `Plan.Run` (plan.go:158-168): validate (a validation error is
returned with no report, wrapped in `plan validation: `), then run. -/
def planRun (p : Plan) :
    Option (Option (List TaskResult) × List Event × Option String) :=
  match validateTasks p.tasks with
  | none => none
  | some (some e) => some (none, [], some ("plan validation: " ++ e.message))
  | some none =>
    match runnerRun p with
    | none => none
    | some out => some (some out.tasks, out.evs, out.err)

/-- Status of the task named `n` in a report. -/
def reportStatus (trs : List TaskResult) (n : String) : Option Status :=
  (trs.find? (fun tr => tr.name == n)).map TaskResult.status

/-- The 1-based attempt numbers of the `on-retry` events in a trace. -/
def retryAttemptNums (evs : List Event) : List Nat :=
  evs.filterMap (fun e =>
    match e with
    | Event.onRetry _ a _ => some a
    | _ => none)

lemma runAttempts_calls_pos (body : Nat → Except String Result) (tname : String)
    (remaining attempt : Nat) (h : 0 < remaining) :
    1 ≤ (runAttempts body tname attempt remaining).2.2 := by
  match remaining with
  | 0 => omega
  | 1 => exact Nat.le_refl 1
  | r + 2 =>
    cases hb : body attempt with
    | ok res => simp only [runAttempts, hb]; omega
    | error e => simp only [runAttempts, hb]; omega

lemma runAttempts_spec (body : Nat → Except String Result) (tname : String) :
    ∀ remaining attempt,
      (runAttempts body tname attempt remaining).2.2 ≤ remaining ∧
      retryAttemptNums (runAttempts body tname attempt remaining).2.1 =
        (List.range ((runAttempts body tname attempt remaining).2.2 - 1)).map
          (fun i => attempt + i + 1) := by
  intro remaining
  induction remaining with
  | zero => intro attempt; exact ⟨Nat.le_refl 0, rfl⟩
  | succ r ih =>
    intro attempt
    match r with
    | 0 => exact ⟨Nat.le_refl 1, rfl⟩
    | r' + 1 =>
      cases hb : body attempt with
      | ok res =>
        simp only [runAttempts, hb]
        exact ⟨by omega, rfl⟩
      | error e =>
        obtain ⟨h1, h2⟩ := ih (attempt + 1)
        have hc1 := runAttempts_calls_pos body tname (r' + 1) (attempt + 1) (by omega)
        simp only [runAttempts, hb]
        refine ⟨by omega, ?_⟩
        simp only [retryAttemptNums] at h2 ⊢
        simp only [List.filterMap_cons]
        rw [h2]
        rw [show (runAttempts body tname (attempt + 1) (r' + 1)).2.2 + 1 - 1 =
            ((runAttempts body tname (attempt + 1) (r' + 1)).2.2 - 1) + 1 by omega]
        rw [List.range_succ_eq_map]
        simp only [List.map_cons, List.map_map, List.cons.injEq]
        refine ⟨trivial, ?_⟩
        apply List.map_congr_left
        intro i _
        simp only [Function.comp_apply]
        omega

lemma runBody_calls (p : Plan) (st : RState) (t : Task) :
    (runBody p st t).calls =
      (runAttempts (taskBody p t) t.name 0 (maxAttemptsOf p t)).2.2 := by
  unfold runBody
  dsimp only
  split <;> rfl

lemma runBody_retryNums (p : Plan) (st : RState) (t : Task) :
    retryAttemptNums (runBody p st t).evs =
      retryAttemptNums (runAttempts (taskBody p t) t.name 0 (maxAttemptsOf p t)).2.1 := by
  unfold runBody
  dsimp only
  split <;>
    simp [retryAttemptNums, List.filterMap_cons, List.filterMap_append]

lemma runTask_calls_le (p : Plan) (st : RState) (t : Task) :
    (runTask p st t).calls ≤ maxAttemptsOf p t := by
  unfold runTask
  split
  · simp [skipStep]
  · split
    · simp [skipStep]
    · split
      · simp [skipStep]
      · rw [runBody_calls]
        exact (runAttempts_spec _ t.name (maxAttemptsOf p t) 0).1

lemma runTask_retryAttemptNums (p : Plan) (st : RState) (t : Task) :
    retryAttemptNums (runTask p st t).evs =
      (List.range ((runTask p st t).calls - 1)).map (fun i => i + 1) := by
  unfold runTask
  split
  · rfl
  · split
    · rfl
    · split
      · rfl
      · rw [runBody_retryNums, runBody_calls,
          (runAttempts_spec (taskBody p t) t.name (maxAttemptsOf p t) 0).2]
        exact List.map_congr_left (fun i _ => by omega)

/-- Retry-convergence scenario (spec §8 scenario 5): a body that errors
on attempts 1 and 2 and succeeds on attempt 3. -/
def flakyTask : Task :=
  { name := "flaky"
    fn := some (fun a =>
      if a < 2 then Except.error ("attempt " ++ toString (a + 1) ++ " failed")
      else Except.ok { changed := true }) }

/-- Plan for the retry scenario: default error strategy `retry(2)`. -/
def retryPlan : Plan :=
  { tasks := [flakyTask], config := { onErrorStrategy := Retry 2 } }

/-- A task with no overrides, for witnesses. -/
def simpleTask : Task := { name := "t" }

/-- C6: the retry loop invokes a task's body at most `max-attempts`
times, with `max-attempts = 1` for `stop-all`/`continue` and `1 + n`
for `retry(n)`; the `on-retry` events between failing attempts carry
the attempt numbers `1, 2, ...`; and in the concrete `retry(2)`
scenario whose body errors on attempts 1 and 2 and succeeds on attempt
3, the body runs exactly 3 times, the final status is `CHANGED`, and
exactly the two `on-retry` events with attempts 1 and 2 fire. -/
theorem c6_retry_loop :
    (∀ p st t, (runTask p st t).calls ≤ maxAttemptsOf p t) ∧
    (∀ p t, (effectiveStrategy p t = StopAll ∨ effectiveStrategy p t = Continue) →
      maxAttemptsOf p t = 1) ∧
    (∀ p t n, effectiveStrategy p t = Retry n → maxAttemptsOf p t = n + 1) ∧
    (∀ p st t, retryAttemptNums (runTask p st t).evs =
      (List.range ((runTask p st t).calls - 1)).map (fun i => i + 1)) ∧
    ((runTask retryPlan {} flakyTask).calls = 3 ∧
     (runTask retryPlan {} flakyTask).tr.status = Status.changed ∧
     (runTask retryPlan {} flakyTask).tr.changed = true ∧
     retryAttemptNums (runTask retryPlan {} flakyTask).evs = [1, 2]) := by
  refine ⟨runTask_calls_le, ?_, ?_, runTask_retryAttemptNums, ?_, ?_, ?_, ?_⟩
  · intro p t h
    unfold maxAttemptsOf
    rcases h with h | h <;> rw [h] <;> rfl
  · intro p t n h
    unfold maxAttemptsOf
    rw [h]
    rfl
  · rfl
  · rfl
  · rfl
  · rfl

/-- Witness for C6 at concrete inputs: a freshly configured plan gives
`max-attempts = 1`, a `retry(2)` effective policy gives 3. -/
theorem c6_retry_loop_witness :
    (effectiveStrategy (NewPlan none []) simpleTask = StopAll ∨
      effectiveStrategy (NewPlan none []) simpleTask = Continue) ∧
    maxAttemptsOf (NewPlan none []) simpleTask = 1 ∧
    effectiveStrategy retryPlan flakyTask = Retry 2 ∧
    maxAttemptsOf retryPlan flakyTask = 2 + 1 :=
  ⟨Or.inl rfl, c6_retry_loop.2.1 (NewPlan none []) simpleTask (Or.inl rfl),
    rfl, c6_retry_loop.2.2.1 retryPlan flakyTask 2 rfl⟩

/-- Collaborators the runner can hand to a caller-supplied functional
body when invoking it. -/
inductive RunnerArg where
  | cancellationToken
  | osapiClient
deriving DecidableEq, Repr

/-- The argument list of the functional-body invocation
`t.fn(ctx, client)` at runner.go:293, with `client := r.plan.client`
bound at runner.go:289.  The `TaskFn` declaration matching this call
site (and the package tests) is
`func(ctx context.Context, client *osapi.Client) (*Result, error)`. -/
def taskFnCallArgs : List RunnerArg :=
  [RunnerArg.cancellationToken, RunnerArg.osapiClient]

/-- C9 counterexample: the cancellation token is not the only
collaborator the runner supplies to a functional body — the invocation
at runner.go:293 also passes the plan's OSAPI client. -/
theorem c9_token_not_only_contract :
    taskFnCallArgs ≠ [RunnerArg.cancellationToken] := by decide

/-- C9 (amended): the runner passes the cancellation token as the
first argument to a functional task body, and additionally passes the
plan's OSAPI client as the second (and last) argument. -/
theorem c9_fn_call_args :
    taskFnCallArgs.head? = some RunnerArg.cancellationToken ∧
    taskFnCallArgs = [RunnerArg.cancellationToken, RunnerArg.osapiClient] :=
  ⟨rfl, rfl⟩

/-- C10: for a plan with zero tasks, `levelize` produces exactly one
wave and it is empty; `Levels` of the valid empty plan is `[[]]` (one
level), `Explain` reports 1 level, and `Run` fires `before-level` and
`after-level` exactly once (for the empty wave 0) besides
`before-plan`/`after-plan`, returning a report with zero task
results and no error. -/
theorem c10_empty_plan (p : Plan) (h : p.tasks = []) :
    levelize p.tasks = some [[]] ∧
    planLevels p = some (Except.ok [[]]) ∧
    planExplain p = some "Plan: 0 tasks, 1 levels\n\nLevel 0:\n" ∧
    planRun p = some (some [],
      [Event.beforePlan "Plan: 0 tasks, 1 levels\n\nLevel 0:\n",
       Event.beforeLevel 0 [] false, Event.afterLevel 0 [],
       Event.afterPlan []], none) := by
  obtain ⟨cl, ts, cfg⟩ := p
  simp only at h
  subst h
  have hlv : planLevels (Plan.mk cl [] cfg) = some (Except.ok [[]]) := rfl
  have hex : planExplain (Plan.mk cl [] cfg) =
      some "Plan: 0 tasks, 1 levels\n\nLevel 0:\n" := by
    unfold planExplain
    rw [hlv]
    show some (explainLevels (Plan.mk cl [] cfg).tasks [[]]) = _
    rw [show (Plan.mk cl [] cfg).tasks = [] from rfl]
    rfl
  refine ⟨rfl, hlv, hex, ?_⟩
  unfold planRun
  rw [show validateTasks (Plan.mk cl [] cfg).tasks = some none from rfl]
  unfold runnerRun
  rw [show levelize (Plan.mk cl [] cfg).tasks = some [[]] from rfl, hex]
  dsimp only
  rw [show runLevels (Plan.mk cl [] cfg) 0 {} [[]] =
    ([], {}, [Event.beforeLevel 0 [] false, Event.afterLevel 0 []], none) from rfl]
  rfl

/-- Witness for C10: the freshly constructed plan has no tasks. -/
theorem c10_empty_plan_witness :
    (NewPlan none []).tasks = [] ∧
    (levelize (NewPlan none []).tasks = some [[]] ∧
     planLevels (NewPlan none []) = some (Except.ok [[]]) ∧
     planExplain (NewPlan none []) = some "Plan: 0 tasks, 1 levels\n\nLevel 0:\n" ∧
     planRun (NewPlan none []) = some (some [],
       [Event.beforePlan "Plan: 0 tasks, 1 levels\n\nLevel 0:\n",
        Event.beforeLevel 0 [] false, Event.afterLevel 0 [],
        Event.afterPlan []], none)) :=
  ⟨rfl, c10_empty_plan (NewPlan none []) rfl⟩

lemma runBody_not_skipped (p : Plan) (st : RState) (t : Task) :
    (runBody p st t).tr.status ≠ Status.skipped := by
  unfold runBody
  dsimp only
  split
  · intro h
    exact absurd h (by simp)
  · dsimp only
    split <;> simp

/-- C5: the runner evaluates the skip predicates in the fixed order
dependency-failure gate, change gate, custom guard, and the first that
fires wins, with the reasons `"dependency failed"`,
`"no dependencies changed"`, `"guard returned false"`; the gate
conditions mean what the spec says (first three equivalences); and a
skipped task's body is never invoked. -/
theorem c5_skip_order :
    (∀ st t, (depFailed st t = true ↔ ∃ d ∈ t.deps, d ∈ st.failed)) ∧
    (∀ st t, (noDepChanged st t = true ↔
      ∀ d ∈ t.deps, ∀ r, resultsGet st.results d = some r → r.changed = false)) ∧
    (∀ st t, (guardBlocks st t = true ↔
      ∃ g, t.guard = some g ∧ g st.results = false)) ∧
    (∀ p st t, depFailed st t = true →
      runTask p st t =
        { skipStep st t "dependency failed" with
            st := { st with failed := t.name :: st.failed } }) ∧
    (∀ p st t, depFailed st t = false →
      (t.requiresChange && noDepChanged st t) = true →
      runTask p st t = skipStep st t "no dependencies changed") ∧
    (∀ p st t, depFailed st t = false →
      (t.requiresChange && noDepChanged st t) = false →
      guardBlocks st t = true →
      runTask p st t = skipStep st t "guard returned false") ∧
    (∀ p st t, (runTask p st t).tr.status = Status.skipped →
      (runTask p st t).calls = 0) := by
  refine ⟨?_, ?_, ?_, ?_, ?_, ?_, ?_⟩
  · intro st t
    simp [depFailed, List.any_eq_true]
  · intro st t
    unfold noDepChanged
    simp only [Bool.not_eq_true', List.any_eq_false]
    constructor
    · intro h d hd r hr
      have h2 := h d hd
      rw [hr] at h2
      simpa using h2
    · intro h d hd
      cases hr : resultsGet st.results d with
      | none => simp
      | some r =>
        have := h d hd r hr
        simpa using this
  · intro st t
    unfold guardBlocks
    cases hg : t.guard with
    | none => simp
    | some g0 =>
      simp only [Bool.not_eq_true']
      constructor
      · intro h
        exact ⟨g0, rfl, h⟩
      · rintro ⟨g, hgg, hfalse⟩
        cases hgg
        exact hfalse
  · intro p st t h
    simp [runTask, h]
  · intro p st t h1 h2
    simp [runTask, h1, h2]
  · intro p st t h1 h2 h3
    simp [runTask, h1, h2, h3]
  · intro p st t h
    by_cases h1 : depFailed st t = true
    · simp [runTask, h1, skipStep]
    · by_cases h2 : (t.requiresChange && noDepChanged st t) = true
      · simp [runTask, h1, h2, skipStep]
      · by_cases h3 : guardBlocks st t = true
        · simp [runTask, h1, h2, h3, skipStep]
        · simp only [runTask, h1, h2, h3, if_false, if_neg, Bool.false_eq_true] at h
          exact absurd h (runBody_not_skipped p st t)

/-- Plan fixture for skip-gate witnesses. -/
def wPlan : Plan := { tasks := [], config := { onErrorStrategy := StopAll } }

/-- State with task `a` in the failed set. -/
def wStFailed : RState := { failed := ["a"] }

/-- Task depending on `a`. -/
def wDepTask : Task := { name := "b", deps := ["a"] }

/-- State where `a` completed unchanged. -/
def wStNoChange : RState := { results := [("a", { changed := false })] }

/-- `only-if-changed` task depending on `a`. -/
def wChangeTask : Task := { name := "c", deps := ["a"], requiresChange := true }

/-- Task with a guard that always refuses. -/
def wGuardTask : Task := { name := "g", guard := some (fun _ => false) }

/-- Witness for C5 at concrete inputs: each skip gate fires on its
fixture with the specified reason. -/
theorem c5_skip_order_witness :
    depFailed wStFailed wDepTask = true ∧
    runTask wPlan wStFailed wDepTask =
      { skipStep wStFailed wDepTask "dependency failed" with
          st := { wStFailed with failed := wDepTask.name :: wStFailed.failed } } ∧
    (depFailed wStNoChange wChangeTask = false ∧
     (wChangeTask.requiresChange && noDepChanged wStNoChange wChangeTask) = true ∧
     runTask wPlan wStNoChange wChangeTask =
       skipStep wStNoChange wChangeTask "no dependencies changed") ∧
    (depFailed {} wGuardTask = false ∧
     (wGuardTask.requiresChange && noDepChanged {} wGuardTask) = false ∧
     guardBlocks {} wGuardTask = true ∧
     runTask wPlan {} wGuardTask = skipStep {} wGuardTask "guard returned false") :=
  ⟨rfl, c5_skip_order.2.2.2.1 wPlan wStFailed wDepTask rfl,
   ⟨rfl, rfl, c5_skip_order.2.2.2.2.1 wPlan wStNoChange wChangeTask rfl rfl⟩,
   ⟨rfl, rfl, rfl, c5_skip_order.2.2.2.2.2.1 wPlan {} wGuardTask rfl rfl rfl⟩⟩

/-- The status/changed discipline every recorded `TaskResult` obeys. -/
def trOK (tr : TaskResult) : Prop :=
  (tr.status = Status.changed ∨ tr.status = Status.unchanged ∨
   tr.status = Status.skipped ∨ tr.status = Status.failed) ∧
  (tr.status = Status.changed → tr.changed = true) ∧
  (tr.status = Status.unchanged → tr.changed = false) ∧
  (tr.status = Status.skipped → tr.changed = false) ∧
  (tr.status = Status.failed → tr.changed = false)

lemma runTask_trOK (p : Plan) (st : RState) (t : Task) :
    trOK (runTask p st t).tr := by
  unfold runTask
  split
  · exact ⟨Or.inr (Or.inr (Or.inl rfl)), by simp [skipStep], by simp [skipStep],
      by simp [skipStep], by simp [skipStep]⟩
  · split
    · exact ⟨Or.inr (Or.inr (Or.inl rfl)), by simp [skipStep], by simp [skipStep],
        by simp [skipStep], by simp [skipStep]⟩
    · split
      · exact ⟨Or.inr (Or.inr (Or.inl rfl)), by simp [skipStep], by simp [skipStep],
          by simp [skipStep], by simp [skipStep]⟩
      · unfold runBody
        dsimp only
        split
        · exact ⟨Or.inr (Or.inr (Or.inr rfl)), by simp, by simp, by simp, by simp⟩
        · dsimp only
          rename_i res heq
          cases hc : res.changed with
          | true =>
            simp only [hc, if_true]
            exact ⟨Or.inl rfl, fun _ => rfl, by simp, by simp, by simp⟩
          | false =>
            simp only [hc, Bool.false_eq_true, if_false]
            exact ⟨Or.inr (Or.inl rfl), by simp, fun _ => rfl, by simp, by simp⟩

lemma runLevelTasks_trOK (p : Plan) :
    ∀ (ts : List Task) (st : RState) (tr : TaskResult),
      tr ∈ (runLevelTasks p st ts).1 → trOK tr := by
  intro ts
  induction ts with
  | nil => intro st tr h; simp [runLevelTasks] at h
  | cons t ts ih =>
    intro st tr h
    simp only [runLevelTasks, List.mem_cons] at h
    rcases h with h | h
    · exact h ▸ runTask_trOK p st t
    · exact ih _ tr h

lemma runLevels_trOK (p : Plan) :
    ∀ (ls : List (List Task)) (i : Nat) (st : RState) (tr : TaskResult),
      tr ∈ (runLevels p i st ls).1 → trOK tr := by
  intro ls
  induction ls with
  | nil => intro i st tr h; simp [runLevels] at h
  | cons l ls ih =>
    intro i st tr h
    unfold runLevels at h
    dsimp only at h
    split at h
    · exact runLevelTasks_trOK p l st tr h
    · simp only [List.mem_append] at h
      rcases h with h | h
      · exact runLevelTasks_trOK p l st tr h
      · exact ih _ _ tr h

/-- The task results of the final report of `runner.run` (empty when
the run would diverge, i.e. the plan is cyclic or not closed). -/
def runnerReportTasks (p : Plan) : List TaskResult :=
  match runnerRun p with
  | none => []
  | some out => out.tasks

/-- C7: every `TaskResult` in the final report has a terminal status
(`CHANGED`, `UNCHANGED`, `SKIPPED` or `FAILED`, never `PENDING` or
`RUNNING`), `CHANGED` implies `changed=true`, and `UNCHANGED`,
`SKIPPED` and `FAILED` imply `changed=false`. -/
theorem c7_terminal_status (p : Plan) (tr : TaskResult)
    (h : tr ∈ runnerReportTasks p) :
    (tr.status = Status.changed ∨ tr.status = Status.unchanged ∨
     tr.status = Status.skipped ∨ tr.status = Status.failed) ∧
    tr.status ≠ Status.pending ∧ tr.status ≠ Status.running ∧
    (tr.status = Status.changed → tr.changed = true) ∧
    (tr.status = Status.unchanged → tr.changed = false) ∧
    (tr.status = Status.skipped → tr.changed = false) ∧
    (tr.status = Status.failed → tr.changed = false) := by
  unfold runnerReportTasks at h
  split at h
  · simp at h
  · rename_i out hout
    unfold runnerRun at hout
    have : trOK tr := by
      split at hout
      · exact absurd hout (by simp)
      · split at hout
        · exact absurd hout (by simp)
        · cases hout
          exact runLevels_trOK p _ 0 {} tr h
    obtain ⟨h1, h2, h3, h4, h5⟩ := this
    refine ⟨h1, ?_, ?_, h2, h3, h4, h5⟩
    · rcases h1 with h | h | h | h <;> simp [h]
    · rcases h1 with h | h | h | h <;> simp [h]

/-- The report entry for the retry scenario, used as a witness. -/
def flakyTr : TaskResult :=
  { name := "flaky", status := Status.changed, changed := true }

/-- Witness for C7 at a concrete run: the retry plan's report contains
the `flaky` result and it satisfies the status discipline. -/
theorem c7_terminal_status_witness :
    flakyTr ∈ runnerReportTasks retryPlan ∧
    ((flakyTr.status = Status.changed ∨ flakyTr.status = Status.unchanged ∨
      flakyTr.status = Status.skipped ∨ flakyTr.status = Status.failed) ∧
     flakyTr.status ≠ Status.pending ∧ flakyTr.status ≠ Status.running ∧
     (flakyTr.status = Status.changed → flakyTr.changed = true) ∧
     (flakyTr.status = Status.unchanged → flakyTr.changed = false) ∧
     (flakyTr.status = Status.skipped → flakyTr.changed = false) ∧
     (flakyTr.status = Status.failed → flakyTr.changed = false)) :=
  ⟨by rw [show runnerReportTasks retryPlan = [flakyTr] from rfl]
      exact List.mem_cons_self _ _,
   c7_terminal_status retryPlan flakyTr
     (by rw [show runnerReportTasks retryPlan = [flakyTr] from rfl]
         exact List.mem_cons_self _ _)⟩

/-- A wave entry that makes the abort scan fire: a `FAILED` result
whose task's effective policy is not `continue`. -/
def fatalPair (p : Plan) (pr : TaskResult × Task) : Prop :=
  pr.1.status = Status.failed ∧ (effectiveStrategy p pr.2).kind ≠ "continue"

lemma fatalPair_bool (p : Plan) (pr : TaskResult × Task) :
    (pr.1.status == Status.failed &&
      (effectiveStrategy p pr.2).kind != "continue") = true ↔ fatalPair p pr := by
  simp [fatalPair, Bool.and_eq_true, bne_iff_ne]

lemma levelAbortErr_none_of (p : Plan) :
    ∀ zl : List (TaskResult × Task),
      (∀ pr ∈ zl, pr.1.status = Status.failed →
        (effectiveStrategy p pr.2).kind = "continue") →
      levelAbortErr p zl = none := by
  intro zl
  induction zl with
  | nil => intro _; rfl
  | cons pr rest ih =>
    intro h
    obtain ⟨tr, t⟩ := pr
    unfold levelAbortErr
    rw [if_neg]
    · exact ih (fun pr' hm => h pr' (List.mem_cons_of_mem _ hm))
    · intro hb
      simp only [Bool.and_eq_true, beq_iff_eq, bne_iff_ne] at hb
      exact hb.2 (h (tr, t) (List.mem_cons_self _ _) hb.1)

lemma levelAbortErr_some_of (p : Plan) :
    ∀ zl : List (TaskResult × Task),
      (∀ pr ∈ zl, pr.1.status = Status.failed → pr.1.error.isSome = true) →
      ∀ pr0 ∈ zl, fatalPair p pr0 →
      ∃ (n : Nat) (pr : TaskResult × Task) (e : String),
        zl[n]? = some pr ∧ fatalPair p pr ∧ pr.1.error = some e ∧
        (∀ m pr', m < n → zl[m]? = some pr' → ¬ fatalPair p pr') ∧
        levelAbortErr p zl = some e := by
  intro zl
  induction zl with
  | nil => intro _ pr0 h0; simp at h0
  | cons hd rest ih =>
    intro hwf pr0 h0 hfat0
    by_cases hf : fatalPair p hd
    · have hsome : hd.1.error.isSome = true :=
        hwf hd (List.mem_cons_self _ _) hf.1
      obtain ⟨e, he⟩ := Option.isSome_iff_exists.mp hsome
      refine ⟨0, hd, e, by simp, hf, he, ?_, ?_⟩
      · intro m pr' hm; omega
      · obtain ⟨tr, t⟩ := hd
        unfold levelAbortErr
        rw [if_pos (show (tr.status == Status.failed &&
            (effectiveStrategy p t).kind != "continue") = true by
          simp only [Bool.and_eq_true, beq_iff_eq, bne_iff_ne]
          exact hf)]
        exact he
    · have h0' : pr0 ∈ rest := by
        rcases List.mem_cons.mp h0 with h | h
        · exact absurd (h ▸ hfat0) hf
        · exact h
      obtain ⟨n, pr, e, hn, hfat, he, hearlier, habort⟩ :=
        ih (fun pr' hm => hwf pr' (List.mem_cons_of_mem _ hm)) pr0 h0' hfat0
      refine ⟨n + 1, pr, e, by simpa using hn, hfat, he, ?_, ?_⟩
      · intro m pr' hm hget
        match m with
        | 0 =>
          simp only [List.getElem?_cons_zero] at hget
          cases hget
          exact hf
        | m' + 1 =>
          simp only [List.getElem?_cons_succ] at hget
          exact hearlier m' pr' (by omega) hget
      · obtain ⟨tr, t⟩ := hd
        unfold levelAbortErr
        rw [if_neg]
        · exact habort
        · intro hb
          simp only [Bool.and_eq_true, beq_iff_eq, bne_iff_ne] at hb
          exact hf hb

lemma runTask_failed_error (p : Plan) (st : RState) (t : Task) :
    (runTask p st t).tr.status = Status.failed →
    (runTask p st t).tr.error.isSome = true := by
  unfold runTask
  split
  · intro h; exact absurd h (by simp [skipStep])
  · split
    · intro h; exact absurd h (by simp [skipStep])
    · split
      · intro h; exact absurd h (by simp [skipStep])
      · unfold runBody
        dsimp only
        split
        · intro _; rfl
        · dsimp only
          split <;> intro h <;> exact absurd h (by simp)

lemma runLevelTasks_failed_error (p : Plan) :
    ∀ (ts : List Task) (st : RState) (tr : TaskResult),
      tr ∈ (runLevelTasks p st ts).1 →
      tr.status = Status.failed → tr.error.isSome = true := by
  intro ts
  induction ts with
  | nil => intro st tr h; simp [runLevelTasks] at h
  | cons t ts ih =>
    intro st tr h
    simp only [runLevelTasks, List.mem_cons] at h
    rcases h with h | h
    · exact h ▸ runTask_failed_error p st t
    · exact ih _ tr h

lemma runLevels_cons_abort (p : Plan) (i : Nat) (st : RState) (l : List Task)
    (rest : List (List Task)) (e : String)
    (h : levelAbortErr p ((runLevelTasks p st l).1.zip l) = some e) :
    runLevels p i st (l :: rest) =
      ((runLevelTasks p st l).1, (runLevelTasks p st l).2.1,
       Event.beforeLevel i (l.map Task.name) (decide (1 < l.length)) ::
         (runLevelTasks p st l).2.2 ++
           [Event.afterLevel i (runLevelTasks p st l).1],
       some e) := by
  simp only [runLevels]
  rw [h]

lemma runLevels_cons_continue (p : Plan) (i : Nat) (st : RState) (l : List Task)
    (rest : List (List Task))
    (h : levelAbortErr p ((runLevelTasks p st l).1.zip l) = none) :
    runLevels p i st (l :: rest) =
      ((runLevelTasks p st l).1 ++
         (runLevels p (i + 1) (runLevelTasks p st l).2.1 rest).1,
       (runLevels p (i + 1) (runLevelTasks p st l).2.1 rest).2.1,
       (Event.beforeLevel i (l.map Task.name) (decide (1 < l.length)) ::
         (runLevelTasks p st l).2.2 ++
           [Event.afterLevel i (runLevelTasks p st l).1]) ++
         (runLevels p (i + 1) (runLevelTasks p st l).2.1 rest).2.2.1,
       (runLevels p (i + 1) (runLevelTasks p st l).2.1 rest).2.2.2) := by
  simp only [runLevels]
  rw [h]

/-- C3: after a wave completes, the abort decision of `runner.run`:
the default policy of a freshly configured plan is `stop-all`; the
effective policy is the per-task override if set, else the plan
default; if some `FAILED` result's effective policy is not `continue`
(`retry` included, since its kind is not `"continue"`), the run
returns this wave's results and stops — with the error of the first
such failure in wave order — and no further wave is started; if every
failing task's effective policy is `continue`, the runner proceeds
with the next wave. -/
theorem c3_wave_abort :
    (NewPlan none []).config.onErrorStrategy = StopAll ∧
    (∀ p t, effectiveStrategy p t = t.errorStrategy.getD p.config.onErrorStrategy) ∧
    (∀ p i st (l : List Task) rest pr0,
      pr0 ∈ (runLevelTasks p st l).1.zip l → fatalPair p pr0 →
      ∃ (n : Nat) (pr : TaskResult × Task) (e : String),
        ((runLevelTasks p st l).1.zip l)[n]? = some pr ∧ fatalPair p pr ∧
        pr.1.error = some e ∧
        (∀ m pr', m < n → ((runLevelTasks p st l).1.zip l)[m]? = some pr' →
          ¬ fatalPair p pr') ∧
        runLevels p i st (l :: rest) =
          ((runLevelTasks p st l).1, (runLevelTasks p st l).2.1,
           Event.beforeLevel i (l.map Task.name) (decide (1 < l.length)) ::
             (runLevelTasks p st l).2.2 ++
               [Event.afterLevel i (runLevelTasks p st l).1],
           some e)) ∧
    (∀ p i st (l : List Task) rest,
      (∀ pr ∈ (runLevelTasks p st l).1.zip l, pr.1.status = Status.failed →
        (effectiveStrategy p pr.2).kind = "continue") →
      runLevels p i st (l :: rest) =
        ((runLevelTasks p st l).1 ++
           (runLevels p (i + 1) (runLevelTasks p st l).2.1 rest).1,
         (runLevels p (i + 1) (runLevelTasks p st l).2.1 rest).2.1,
         (Event.beforeLevel i (l.map Task.name) (decide (1 < l.length)) ::
           (runLevelTasks p st l).2.2 ++
             [Event.afterLevel i (runLevelTasks p st l).1]) ++
           (runLevels p (i + 1) (runLevelTasks p st l).2.1 rest).2.2.1,
         (runLevels p (i + 1) (runLevelTasks p st l).2.1 rest).2.2.2)) := by
  refine ⟨rfl, fun p t => rfl, ?_, ?_⟩
  · intro p i st l rest pr0 hmem hfat
    have hwf : ∀ pr ∈ (runLevelTasks p st l).1.zip l,
        pr.1.status = Status.failed → pr.1.error.isSome = true := by
      intro pr hm hfail
      exact runLevelTasks_failed_error p l st pr.1 (List.of_mem_zip hm).1 hfail
    obtain ⟨n, pr, e, hn, hf, he, hearlier, habort⟩ :=
      levelAbortErr_some_of p _ hwf pr0 hmem hfat
    exact ⟨n, pr, e, hn, hf, he, hearlier, runLevels_cons_abort p i st l rest e habort⟩
  · intro p i st l rest h
    exact runLevels_cons_continue p i st l rest (levelAbortErr_none_of p _ h)

/-- A task whose body always errors, for abort witnesses. -/
def failTask : Task := { name := "f", fn := some (fun _ => Except.error "boom") }

/-- Fail-fast plan holding `failTask`. -/
def stopPlan : Plan := { tasks := [failTask], config := { onErrorStrategy := StopAll } }

/-- Continue plan holding `failTask`. -/
def contPlan : Plan := { tasks := [failTask], config := { onErrorStrategy := Continue } }

/-- The recorded failure of `failTask`. -/
def failTr : TaskResult := { name := "f", status := Status.failed, error := some "boom" }

/-- Witness for C3 at concrete inputs: under `stop-all` the failing
wave aborts with the failure's error; under `continue` the runner
proceeds. -/
theorem c3_wave_abort_witness :
    ((failTr, failTask) ∈ (runLevelTasks stopPlan {} [failTask]).1.zip [failTask] ∧
     fatalPair stopPlan (failTr, failTask)) ∧
    (∃ (n : Nat) (pr : TaskResult × Task) (e : String),
      ((runLevelTasks stopPlan {} [failTask]).1.zip [failTask])[n]? = some pr ∧
      fatalPair stopPlan pr ∧ pr.1.error = some e ∧
      (∀ m pr', m < n →
        ((runLevelTasks stopPlan {} [failTask]).1.zip [failTask])[m]? = some pr' →
        ¬ fatalPair stopPlan pr') ∧
      runLevels stopPlan 0 {} [[failTask]] =
        ((runLevelTasks stopPlan {} [failTask]).1,
         (runLevelTasks stopPlan {} [failTask]).2.1,
         Event.beforeLevel 0 (([failTask] : List Task).map Task.name)
             (decide (1 < ([failTask] : List Task).length)) ::
           (runLevelTasks stopPlan {} [failTask]).2.2 ++
             [Event.afterLevel 0 (runLevelTasks stopPlan {} [failTask]).1],
         some e)) ∧
    ((∀ pr ∈ (runLevelTasks contPlan {} [failTask]).1.zip [failTask],
        pr.1.status = Status.failed →
        (effectiveStrategy contPlan pr.2).kind = "continue") ∧
     runLevels contPlan 0 {} [[failTask]] =
       ((runLevelTasks contPlan {} [failTask]).1 ++
          (runLevels contPlan 1 (runLevelTasks contPlan {} [failTask]).2.1 []).1,
        (runLevels contPlan 1 (runLevelTasks contPlan {} [failTask]).2.1 []).2.1,
        (Event.beforeLevel 0 (([failTask] : List Task).map Task.name)
            (decide (1 < ([failTask] : List Task).length)) ::
          (runLevelTasks contPlan {} [failTask]).2.2 ++
            [Event.afterLevel 0 (runLevelTasks contPlan {} [failTask]).1]) ++
          (runLevels contPlan 1 (runLevelTasks contPlan {} [failTask]).2.1 []).2.2.1,
        (runLevels contPlan 1 (runLevelTasks contPlan {} [failTask]).2.1 []).2.2.2)) := by
  have hzip : (runLevelTasks stopPlan {} [failTask]).1.zip [failTask] =
      [(failTr, failTask)] := rfl
  have hmem : (failTr, failTask) ∈
      (runLevelTasks stopPlan {} [failTask]).1.zip [failTask] := by
    rw [hzip]; exact List.mem_cons_self _ _
  have hfat : fatalPair stopPlan (failTr, failTask) := ⟨rfl, by decide⟩
  have hcont : ∀ pr ∈ (runLevelTasks contPlan {} [failTask]).1.zip [failTask],
      pr.1.status = Status.failed →
      (effectiveStrategy contPlan pr.2).kind = "continue" := by
    intro pr hm _
    rw [show (runLevelTasks contPlan {} [failTask]).1.zip [failTask] =
      [(failTr, failTask)] from rfl] at hm
    rw [List.mem_singleton.mp hm]
    rfl
  exact ⟨⟨hmem, hfat⟩,
    c3_wave_abort.2.2.1 stopPlan 0 {} [failTask] [] (failTr, failTask) hmem hfat,
    hcont, c3_wave_abort.2.2.2 contPlan 0 {} [failTask] [] hcont⟩

lemma string_foldl_append (l : List String) :
    ∀ s : String, l.foldl (· ++ ·) s = s ++ l.foldl (· ++ ·) "" := by
  induction l with
  | nil => intro s; simp [String.append_empty]
  | cons a l ih =>
    intro s
    simp only [List.foldl_cons]
    rw [ih (s ++ a), ih ("" ++ a), String.empty_append, String.append_assoc]

lemma string_join_cons (a : String) (l : List String) :
    String.join (a :: l) = a ++ String.join l := by
  show (a :: l).foldl (· ++ ·) "" = _
  simp only [List.foldl_cons, String.empty_append]
  exact string_foldl_append l a

/-- One task line, as the amended C8 describes it:
`"  name [op|fn] <- dep1, dep2 (only-if-changed, when)\n"`. -/
def shapeLine (t : Task) : String :=
  let kind := if t.fn.isSome then "fn" else "op"
  let depPart :=
    if t.deps.isEmpty then "" else " <- " ++ String.intercalate ", " t.deps
  let flags :=
    (if t.requiresChange then ["only-if-changed"] else []) ++
    (if t.guard.isSome then ["when"] else [])
  let flagPart :=
    if flags.isEmpty then "" else " (" ++ String.intercalate ", " flags ++ ")"
  "  " ++ t.name ++ " [" ++ kind ++ "]" ++ depPart ++ flagPart ++ "\n"

/-- The wave sections, as the amended C8 describes them: one
`"\nLevel i"` header per wave, with the `" (parallel)"` marker exactly
on waves of more than one task, followed by that wave's task lines. -/
def shapeSections : Nat → List (List Task) → String
  | _, [] => ""
  | i, l :: ls =>
    "\nLevel " ++ toString i ++ (if 1 < l.length then " (parallel)" else "") ++
      ":\n" ++ String.join (l.map shapeLine) ++ shapeSections (i + 1) ls

/-- The full explain text, as the amended C8 describes it. -/
def explainShape (g : List Task) (levels : List (List Task)) : String :=
  "Plan: " ++ toString g.length ++ " tasks, " ++ toString levels.length ++
    " levels\n" ++ shapeSections 0 levels

lemma taskLine_eq_shapeLine (t : Task) : taskLine t = shapeLine t := by
  unfold taskLine shapeLine taskKind
  cases hf : t.fn <;> cases hg : t.guard <;>
    cases hr : t.requiresChange <;> by_cases hd : t.deps.isEmpty <;>
    simp [hf, hg, hr, hd, String.append_assoc, String.append_empty,
      String.empty_append, -String.reduceAppend]

lemma sections_eq_shape (ls : List (List Task)) :
    ∀ i, String.join ((ls.enumFrom i).map (fun e => levelSection e.1 e.2)) =
      shapeSections i ls := by
  induction ls with
  | nil => intro i; rfl
  | cons l ls ih =>
    intro i
    rw [List.enumFrom_cons]
    simp only [List.map_cons]
    rw [string_join_cons, ih (i + 1)]
    have hmap : List.map taskLine l = List.map shapeLine l :=
      List.map_congr_left (fun t _ => taskLine_eq_shapeLine t)
    simp only [shapeSections]
    unfold levelSection
    rw [hmap]
    by_cases hp : 1 < l.length
    · simp only [hp, if_true, String.append_assoc,
        show (" (parallel):\n" : String) = " (parallel)" ++ ":\n" from rfl]
    · simp only [hp, if_false, String.append_assoc, String.append_empty,
        String.empty_append]

lemma explainLevels_eq_shape (g : List Task) (levels : List (List Task)) :
    explainLevels g levels = explainShape g levels := by
  unfold explainLevels explainShape
  rw [show levels.enum = levels.enumFrom 0 from rfl, sections_eq_shape levels 0]

/-- A one-task functional plan for the explain counterexample. -/
def aTask : Task := { name := "a", fn := some (fun _ => Except.ok { changed := true }) }

/-- Plan holding only `aTask`. -/
def aPlan : Plan := { tasks := [aTask], config := { onErrorStrategy := StopAll } }

/-- C8 counterexample: `Plan.Explain` renders the header and section
markers with the word `levels`/`Level`, not `waves`/`Wave` as the
claimed shape states — shown on a one-task plan, whose explain text
differs from the claimed wave-shape under either reading of the
parallel marker. -/
theorem c8_explain_no_waves :
    planExplain aPlan = some "Plan: 1 tasks, 1 levels\n\nLevel 0:\n  a [fn]\n" ∧
    "Plan: 1 tasks, 1 levels\n\nLevel 0:\n  a [fn]\n" ≠
      "Plan: 1 tasks, 1 waves\n\nWave 0:\n  a [fn]\n" ∧
    "Plan: 1 tasks, 1 levels\n\nLevel 0:\n  a [fn]\n" ≠
      "Plan: 1 tasks, 1 waves\n\nWave 0 (parallel):\n  a [fn]\n" :=
  ⟨rfl, by decide, by decide⟩

/-- C8 (amended): for every valid plan, `Explain` returns exactly the
plain text `"Plan: N tasks, K levels\n"` followed by one section per
wave of the shape `"\nLevel i (parallel):\n  name [op|fn] <- dep1,
dep2 (only-if-changed, when)\n"`, where the `(parallel)` marker
appears exactly on waves with more than one task and the dependency
and flag fragments are omitted when empty. -/
theorem c8_explain_shape (p : Plan) (levels : List (List Task))
    (h : planLevels p = some (Except.ok levels)) :
    planExplain p = some (explainShape p.tasks levels) := by
  unfold planExplain
  rw [h]
  show some (explainLevels p.tasks levels) = _
  rw [explainLevels_eq_shape]

/-- Witness for the amended C8 at a concrete valid plan. -/
theorem c8_explain_shape_witness :
    planLevels aPlan = some (Except.ok [[aTask]]) ∧
    planExplain aPlan = some (explainShape aPlan.tasks [[aTask]]) :=
  ⟨rfl, c8_explain_shape aPlan [[aTask]] rfl⟩

/-- Dependency edge on task names: `u`'s task (the one `findTask`
resolves, i.e. the first with that name) lists `v` among its
dependencies. -/
def edgeG (g : List Task) (u v : String) : Prop :=
  ∃ t, findTask g u = some t ∧ v ∈ t.deps

/-- Reachability along dependency edges. -/
def reachG (g : List Task) : String → String → Prop :=
  Relation.ReflTransGen (edgeG g)

/-- The dependency graph has a cycle. -/
def hasCycleG (g : List Task) : Prop :=
  ∃ u, Relation.TransGen (edgeG g) u u

lemma findTask_mem_name {g : List Task} {d : String} {t : Task}
    (h : findTask g d = some t) : t ∈ g ∧ t.name = d := by
  unfold findTask at h
  have hm := List.mem_of_find?_eq_some h
  have hp := List.find?_some h
  exact ⟨hm, by simpa using hp⟩

lemma findTask_of_nodup {g : List Task} {t : Task}
    (hnd : (names g).Nodup) (ht : t ∈ g) : findTask g t.name = some t := by
  induction g with
  | nil => simp at ht
  | cons u g ih =>
    rcases List.mem_cons.mp ht with h | h
    · subst h
      simp [findTask]
    · have hnd' : (names g).Nodup := (List.nodup_cons.mp hnd).2
      have hne : u.name ≠ t.name := by
        intro he
        exact (List.nodup_cons.mp hnd).1 (he ▸ List.mem_map_of_mem Task.name h)
      unfold findTask
      rw [List.find?_cons_of_neg]
      · exact ih hnd' h
      · simp
        intro he
        exact hne he

lemma closedB_findTask {g : List Task} (hc : closedB g = true) {t : Task}
    (ht : t ∈ g) {d : String} (hd : d ∈ t.deps) :
    ∃ dt, findTask g d = some dt := by
  unfold closedB at hc
  rw [List.all_eq_true] at hc
  have h1 := hc t ht
  rw [List.all_eq_true] at h1
  have h2 := h1 d hd
  rw [List.any_eq_true] at h2
  obtain ⟨u, hu, hud⟩ := h2
  unfold findTask
  exact Option.isSome_iff_exists.mp
    (List.find?_isSome.mpr ⟨u, hu, hud⟩)

lemma getColor_set (c : List (String × Color)) (n : String) (col : Color)
    (m : String) :
    getColor (setColor c n col) m = if m = n then col else getColor c m := by
  unfold getColor setColor alookup
  by_cases h : m = n
  · subst h
    simp
  · simp only [List.find?_cons]
    rw [if_neg h]
    have : (n == m) = false := by
      simp
      intro he
      exact h he.symm
    simp [this]

/-- Rank of a color; colors only move up during the DFS. -/
def crank : Color → Nat
  | Color.white => 0
  | Color.gray => 1
  | Color.black => 2

/-- Pointwise color-map ordering. -/
def cmLE (c c' : List (String × Color)) : Prop :=
  ∀ n, crank (getColor c n) ≤ crank (getColor c' n)

lemma cmLE_refl (c : List (String × Color)) : cmLE c c := fun _ => Nat.le_refl _

lemma cmLE_trans {a b c : List (String × Color)} (h1 : cmLE a b)
    (h2 : cmLE b c) : cmLE a c := fun n => (h1 n).trans (h2 n)

lemma cmLE_black {c c' : List (String × Color)} (h : cmLE c c') {n : String}
    (hb : getColor c n = Color.black) : getColor c' n = Color.black := by
  have := h n
  rw [hb] at this
  cases hc : getColor c' n <;> rw [hc] at this <;> simp [crank] at this ⊢

lemma crank_white {x : Color} (h : crank x ≤ 0) : x = Color.white := by
  cases x <;> simp [crank] at h ⊢

/-- Number of still-white plan names. -/
def whiteCount (g : List Task) (c : List (String × Color)) : Nat :=
  ((names g).dedup.filter (fun n => getColor c n == Color.white)).length

lemma whiteCount_le_of_cmLE {g : List Task} {c c' : List (String × Color)}
    (h : cmLE c c') : whiteCount g c' ≤ whiteCount g c := by
  unfold whiteCount
  rw [← List.countP_eq_length_filter, ← List.countP_eq_length_filter]
  apply List.countP_mono_left
  intro n _ hw
  have hw' : getColor c' n = Color.white := by simpa using hw
  have := h n
  rw [hw'] at this
  have : getColor c n = Color.white := crank_white (by simpa [crank] using this)
  simp [this]

lemma countP_lt_of_flip {l : List String} {p q : String → Bool}
    (hmono : ∀ x ∈ l, p x = true → q x = true) {n : String} (hn : n ∈ l)
    (hp : p n = false) (hq : q n = true) : l.countP p < l.countP q := by
  induction l with
  | nil => simp at hn
  | cons a l ih =>
    rcases List.mem_cons.mp hn with h | h
    · subst h
      rw [List.countP_cons, List.countP_cons, hp, hq]
      simp only [if_false, if_true]
      have hle : l.countP p ≤ l.countP q :=
        List.countP_mono_left (fun x hx => hmono x (List.mem_cons_of_mem _ hx))
      simp only [Bool.false_eq_true, if_false, if_true]
      omega
    · have hlt : l.countP p < l.countP q :=
        ih (fun x hx => hmono x (List.mem_cons_of_mem _ hx)) h
      rw [List.countP_cons, List.countP_cons]
      have : (if p a then 1 else 0) ≤ (if q a then 1 else 0) := by
        by_cases hpa : p a = true
        · rw [hpa, hmono a (List.mem_cons_self _ _) hpa]
        · simp [hpa]
      omega

lemma whiteCount_gray_lt {g : List Task} {c : List (String × Color)}
    {n : String} (hn : n ∈ names g) (hw : getColor c n = Color.white) :
    whiteCount g (setColor c n Color.gray) < whiteCount g c := by
  unfold whiteCount
  rw [← List.countP_eq_length_filter, ← List.countP_eq_length_filter]
  apply countP_lt_of_flip
  · intro x _ hx
    have hx' : getColor (setColor c n Color.gray) x = Color.white := by
      simpa using hx
    rw [getColor_set] at hx'
    by_cases hxn : x = n
    · rw [if_pos hxn] at hx'
      cases hx'
    · rw [if_neg hxn] at hx'
      simp [hx']
  · exact List.mem_dedup.mpr hn
  · rw [getColor_set, if_pos rfl]
    simp
  · simp [hw]

lemma whiteCount_le_len (g : List Task) (c : List (String × Color)) :
    whiteCount g c ≤ g.length := by
  calc whiteCount g c ≤ (names g).dedup.length := List.length_filter_le _ _
    _ ≤ (names g).length := (names g).dedup_sublist.length_le
    _ = g.length := List.length_map _ _

/-- No black name lies on a dependency cycle, and black names only
point at black names: the invariant of the DFS color map. -/
def blackOK (g : List Task) (c : List (String × Color)) : Prop :=
  ∀ n, getColor c n = Color.black →
    (∀ v, edgeG g n v → getColor c v = Color.black) ∧
    ¬ Relation.TransGen (edgeG g) n n

/-- What one successful `visit` call guarantees, as a property of the
recursive visitor passed to `visitDeps`. -/
def VisitOkProp (g : List Task)
    (visitF : List (String × Color) → Task → Option (Except VErr (List (String × Color)))) :
    Prop :=
  ∀ c t c', t ∈ g → getColor c t.name = Color.white → blackOK g c →
    visitF c t = some (Except.ok c') →
    cmLE c c' ∧
    (∀ n, getColor c' n = Color.gray ↔ getColor c n = Color.gray) ∧
    getColor c' t.name = Color.black ∧ blackOK g c'

lemma blackOK_set_gray {g : List Task} {c : List (String × Color)} {n0 : String}
    (hw : getColor c n0 = Color.white) (h : blackOK g c) :
    blackOK g (setColor c n0 Color.gray) := by
  intro n hb
  rw [getColor_set] at hb
  by_cases hn : n = n0
  · rw [if_pos hn] at hb
    cases hb
  · rw [if_neg hn] at hb
    obtain ⟨hsucc, hcyc⟩ := h n hb
    refine ⟨?_, hcyc⟩
    intro v hv
    rw [getColor_set]
    by_cases hvn : v = n0
    · have := hsucc v hv
      rw [hvn, hw] at this
      cases this
    · rw [if_neg hvn]
      exact hsucc v hv

lemma visitDeps_ok {g : List Task} {visitF : List (String × Color) → Task →
      Option (Except VErr (List (String × Color)))}
    (hF : VisitOkProp g visitF) (t : Task) :
    ∀ (ds : List String) (c c' : List (String × Color)), blackOK g c →
      visitDeps visitF g t c ds = some (Except.ok c') →
      cmLE c c' ∧
      (∀ n, getColor c' n = Color.gray ↔ getColor c n = Color.gray) ∧
      blackOK g c' ∧ ∀ d ∈ ds, getColor c' d = Color.black := by
  intro ds
  induction ds with
  | nil =>
    intro c c' hbok h
    simp only [visitDeps] at h
    cases h
    exact ⟨cmLE_refl c, fun n => Iff.rfl, hbok, by simp⟩
  | cons d ds ih =>
    intro c c' hbok h
    simp only [visitDeps] at h
    cases hft : findTask g d with
    | none => rw [hft] at h; cases h
    | some dt =>
      rw [hft] at h
      dsimp only at h
      obtain ⟨hdtg, hdtn⟩ := findTask_mem_name hft
      cases hcol : getColor c d with
      | gray => rw [hcol] at h; cases h
      | black =>
        rw [hcol] at h
        dsimp only at h
        obtain ⟨h1, h2, h3, h4⟩ := ih c c' hbok h
        refine ⟨h1, h2, h3, ?_⟩
        intro d' hd'
        rcases List.mem_cons.mp hd' with hd' | hd'
        · exact hd' ▸ cmLE_black h1 hcol
        · exact h4 d' hd'
      | white =>
        rw [hcol] at h
        dsimp only at h
        cases hvf : visitF c dt with
        | none => rw [hvf] at h; cases h
        | some r =>
          rw [hvf] at h
          cases r with
          | error e => cases h
          | ok c1 =>
            obtain ⟨hm1, hg1, hb1, hbok1⟩ :=
              hF c dt c1 hdtg (hdtn ▸ hcol) hbok hvf
            obtain ⟨hm2, hg2, hbok2, hds2⟩ := ih c1 c' hbok1 h
            refine ⟨cmLE_trans hm1 hm2,
              fun n => (hg2 n).trans (hg1 n), hbok2, ?_⟩
            intro d' hd'
            rcases List.mem_cons.mp hd' with hd' | hd'
            · exact hd' ▸ cmLE_black hm2 (hdtn ▸ hb1)
            · exact hds2 d' hd'

lemma visit_ok {g : List Task} (hnd : (names g).Nodup) :
    ∀ fuel, VisitOkProp g (visit g fuel) := by
  intro fuel
  induction fuel with
  | zero =>
    intro c t c' _ _ _ h
    cases h
  | succ fuel ih =>
    intro c t c' ht hw hbok h
    simp only [visit] at h
    cases hvd : visitDeps (visit g fuel) g t
        (setColor c t.name Color.gray) t.deps with
    | none => rw [hvd] at h; cases h
    | some r =>
      rw [hvd] at h
      cases r with
      | error e => cases h
      | ok c2 =>
        simp only [Option.some.injEq, Except.ok.injEq] at h
        subst h
        have hgray1 : getColor (setColor c t.name Color.gray) t.name =
            Color.gray := by rw [getColor_set, if_pos rfl]
        have hbok1 := blackOK_set_gray hw hbok
        obtain ⟨hm, hgiff, hbok2, hdsb⟩ := visitDeps_ok ih t t.deps _ c2 hbok1 hvd
        have hg2 : getColor c2 t.name = Color.gray := (hgiff t.name).mpr hgray1
        have hft : findTask g t.name = some t := findTask_of_nodup hnd ht
        have hsucc_black : ∀ v, edgeG g t.name v → getColor c2 v = Color.black := by
          intro v hv
          obtain ⟨t', hft', hvdep⟩ := hv
          rw [hft] at hft'
          cases hft'
          exact hdsb v hvdep
        refine ⟨?_, ?_, ?_, ?_⟩
        · intro n
          by_cases hn : n = t.name
          · subst hn
            rw [getColor_set, if_pos rfl]
            cases getColor c t.name <;> simp [crank]
          · rw [getColor_set, if_neg hn]
            have h1 : getColor c n =
                getColor (setColor c t.name Color.gray) n := by
              rw [getColor_set, if_neg hn]
            rw [h1]
            exact hm n
        · intro n
          by_cases hn : n = t.name
          · subst hn
            rw [getColor_set, if_pos rfl, hw]
            simp
          · rw [getColor_set, if_neg hn]
            have h1 : getColor (setColor c t.name Color.gray) n =
                getColor c n := by rw [getColor_set, if_neg hn]
            rw [← h1]
            exact hgiff n
        · rw [getColor_set, if_pos rfl]
        · intro n hb
          rw [getColor_set] at hb
          by_cases hn : n = t.name
          · subst hn
            constructor
            · intro v hv
              rw [getColor_set]
              by_cases hvn : v = t.name
              · rw [if_pos hvn]
              · rw [if_neg hvn]
                exact hsucc_black v hv
            · intro hcyc
              obtain ⟨v, hedge, hrtg⟩ := Relation.TransGen.head'_iff.mp hcyc
              have hvb : getColor c2 v = Color.black := hsucc_black v hedge
              have hvv : Relation.TransGen (edgeG g) v v :=
                Relation.TransGen.tail' hrtg hedge
              exact (hbok2 v hvb).2 hvv
          · rw [if_neg hn] at hb
            obtain ⟨hsucc, hcyc⟩ := hbok2 n hb
            constructor
            · intro v hv
              rw [getColor_set]
              by_cases hvn : v = t.name
              · rw [if_pos hvn]
              · rw [if_neg hvn]
                exact hsucc v hv
            · exact hcyc

lemma visitAll_acyclic {g : List Task} (hnd : (names g).Nodup) (fuel : Nat) :
    ∀ (ts : List Task) (c : List (String × Color)), blackOK g c →
      (∀ n, getColor c n ≠ Color.gray) →
      (∀ t ∈ ts, t ∈ g) →
      visitAll g fuel c ts = some none →
      ∀ t ∈ ts, ¬ Relation.TransGen (edgeG g) t.name t.name := by
  intro ts
  induction ts with
  | nil => intro c _ _ _ _ t ht; simp at ht
  | cons t0 ts ih =>
    intro c hbok hngray hmem h t ht
    simp only [visitAll] at h
    by_cases hwhite : getColor c t0.name == Color.white
    · rw [if_pos hwhite] at h
      cases hv : visit g fuel c t0 with
      | none => rw [hv] at h; cases h
      | some r =>
        rw [hv] at h
        cases r with
        | error e => cases h
        | ok c' =>
          obtain ⟨hm, hgiff, hblack, hbok'⟩ :=
            visit_ok hnd fuel c t0 c' (hmem t0 (List.mem_cons_self _ _))
              (by simpa using hwhite) hbok hv
          rcases List.mem_cons.mp ht with hteq | htts
          · subst hteq
            exact (hbok' t.name hblack).2
          · exact ih c' hbok'
              (fun n hn => hngray n ((hgiff n).mp hn))
              (fun u hu => hmem u (List.mem_cons_of_mem _ hu)) h t htts
    · rw [if_neg hwhite] at h
      have hb0 : getColor c t0.name = Color.black := by
        cases hx : getColor c t0.name
        · exact absurd (by simp [hx]) hwhite
        · exact absurd hx (hngray t0.name)
        · rfl
      rcases List.mem_cons.mp ht with hteq | htts
      · subst hteq
        exact (hbok t.name hb0).2
      · exact ih c hbok hngray
          (fun u hu => hmem u (List.mem_cons_of_mem _ hu)) h t htts

lemma detectCycle_ok_acyclic {g : List Task} (hnd : (names g).Nodup)
    (h : detectCycle g = some none) : ¬ hasCycleG g := by
  rintro ⟨u, hcyc⟩
  obtain ⟨v, hedge, _⟩ := Relation.TransGen.head'_iff.mp hcyc
  obtain ⟨t, hft, _⟩ := hedge
  obtain ⟨htg, htn⟩ := findTask_mem_name hft
  have := visitAll_acyclic hnd (g.length + 1) g []
    (fun n hb => by simp [getColor, alookup] at hb)
    (fun n hg => by simp [getColor, alookup] at hg)
    (fun t ht => ht) h t htg
  rw [htn] at this
  exact this hcyc

/-- What one failing `visit` call guarantees: the reported error names
an edge that lies on a cycle (given every gray name reaches the
visited task). -/
def VisitErrProp (g : List Task)
    (visitF : List (String × Color) → Task → Option (Except VErr (List (String × Color)))) :
    Prop :=
  ∀ c t e, t ∈ g → getColor c t.name = Color.white → blackOK g c →
    (∀ n, getColor c n = Color.gray → reachG g n t.name) →
    visitF c t = some (Except.error e) →
    ∃ u v, e = VErr.cyc u v ∧ edgeG g u v ∧ reachG g v u

lemma visitDeps_err {g : List Task} (hnd : (names g).Nodup)
    {visitF : List (String × Color) → Task →
      Option (Except VErr (List (String × Color)))}
    (hFok : VisitOkProp g visitF) (hFerr : VisitErrProp g visitF)
    (t : Task) (ht : t ∈ g) :
    ∀ (ds : List String) (c : List (String × Color)) (e : VErr),
      (∀ d ∈ ds, d ∈ t.deps) → blackOK g c →
      (∀ n, getColor c n = Color.gray → reachG g n t.name) →
      visitDeps visitF g t c ds = some (Except.error e) →
      ∃ u v, e = VErr.cyc u v ∧ edgeG g u v ∧ reachG g v u := by
  intro ds
  induction ds with
  | nil => intro c e _ _ _ h; cases h
  | cons d ds ih =>
    intro c e hsub hbok hgrayInv h
    simp only [visitDeps] at h
    have hedge_td : edgeG g t.name d :=
      ⟨t, findTask_of_nodup hnd ht, hsub d (List.mem_cons_self _ _)⟩
    cases hft : findTask g d with
    | none => rw [hft] at h; cases h
    | some dt =>
      rw [hft] at h
      dsimp only at h
      obtain ⟨hdtg, hdtn⟩ := findTask_mem_name hft
      cases hcol : getColor c d with
      | gray =>
        rw [hcol] at h
        simp only [Option.some.injEq, Except.error.injEq] at h
        exact ⟨t.name, d, h.symm ▸ rfl, hedge_td, hgrayInv d hcol⟩
      | black =>
        rw [hcol] at h
        exact ih c e (fun x hx => hsub x (List.mem_cons_of_mem _ hx))
          hbok hgrayInv h
      | white =>
        rw [hcol] at h
        dsimp only at h
        cases hvf : visitF c dt with
        | none => rw [hvf] at h; cases h
        | some r =>
          rw [hvf] at h
          cases r with
          | error e' =>
            simp only [Option.some.injEq, Except.error.injEq] at h
            subst h
            exact hFerr c dt e' hdtg (hdtn ▸ hcol) hbok
              (fun n hn => Relation.ReflTransGen.tail (hgrayInv n hn)
                (hdtn ▸ hedge_td)) hvf
          | ok c1 =>
            obtain ⟨hm1, hg1, hb1, hbok1⟩ :=
              hFok c dt c1 hdtg (hdtn ▸ hcol) hbok hvf
            exact ih c1 e (fun x hx => hsub x (List.mem_cons_of_mem _ hx))
              hbok1
              (fun n hn => hgrayInv n ((hg1 n).mp hn)) h

lemma visit_err {g : List Task} (hnd : (names g).Nodup) :
    ∀ fuel, VisitErrProp g (visit g fuel) := by
  intro fuel
  induction fuel with
  | zero => intro c t e _ _ _ _ h; cases h
  | succ fuel ih =>
    intro c t e ht hw hbok hgrayInv h
    simp only [visit] at h
    cases hvd : visitDeps (visit g fuel) g t
        (setColor c t.name Color.gray) t.deps with
    | none => rw [hvd] at h; cases h
    | some r =>
      rw [hvd] at h
      cases r with
      | ok c2 => cases h
      | error e0 =>
        simp only [Option.some.injEq, Except.error.injEq] at h
        subst h
        refine visitDeps_err hnd (visit_ok hnd fuel) ih t ht t.deps
          (setColor c t.name Color.gray) e0 (fun x hx => hx)
          (blackOK_set_gray hw hbok) ?_ hvd
        intro n hn
        rw [getColor_set] at hn
        by_cases hnt : n = t.name
        · exact hnt ▸ Relation.ReflTransGen.refl
        · rw [if_neg hnt] at hn
          exact hgrayInv n hn

lemma visitAll_err {g : List Task} (hnd : (names g).Nodup) (fuel : Nat) :
    ∀ (ts : List Task) (c : List (String × Color)) (e : VErr), blackOK g c →
      (∀ n, getColor c n ≠ Color.gray) →
      (∀ t ∈ ts, t ∈ g) →
      visitAll g fuel c ts = some (some e) →
      ∃ u v, e = VErr.cyc u v ∧ edgeG g u v ∧ reachG g v u := by
  intro ts
  induction ts with
  | nil => intro c e _ _ _ h; cases h
  | cons t0 ts ih =>
    intro c e hbok hngray hmem h
    simp only [visitAll] at h
    by_cases hwhite : getColor c t0.name == Color.white
    · rw [if_pos hwhite] at h
      cases hv : visit g fuel c t0 with
      | none => rw [hv] at h; cases h
      | some r =>
        rw [hv] at h
        cases r with
        | error e0 =>
          simp only [Option.some.injEq] at h
          subst h
          exact visit_err hnd fuel c t0 e0 (hmem t0 (List.mem_cons_self _ _))
            (by simpa using hwhite) hbok
            (fun n hn => absurd hn (hngray n)) hv
        | ok c' =>
          obtain ⟨hm, hgiff, hblack, hbok'⟩ :=
            visit_ok hnd fuel c t0 c' (hmem t0 (List.mem_cons_self _ _))
              (by simpa using hwhite) hbok hv
          exact ih c' e hbok' (fun n hn => hngray n ((hgiff n).mp hn))
            (fun u hu => hmem u (List.mem_cons_of_mem _ hu)) h
    · rw [if_neg hwhite] at h
      exact ih c e hbok hngray
        (fun u hu => hmem u (List.mem_cons_of_mem _ hu)) h

/-- Color monotonicity of one successful `visit` call on a white
task. -/
def VisitMonoProp (g : List Task)
    (visitF : List (String × Color) → Task → Option (Except VErr (List (String × Color)))) :
    Prop :=
  ∀ c t c', getColor c t.name = Color.white →
    visitF c t = some (Except.ok c') → cmLE c c'

lemma visitDeps_mono {g : List Task}
    {visitF : List (String × Color) → Task →
      Option (Except VErr (List (String × Color)))}
    (hFm : VisitMonoProp g visitF) (t : Task) :
    ∀ (ds : List String) (c c' : List (String × Color)),
      visitDeps visitF g t c ds = some (Except.ok c') → cmLE c c' := by
  intro ds
  induction ds with
  | nil =>
    intro c c' h
    simp only [visitDeps] at h
    cases h
    exact cmLE_refl c
  | cons d ds ih =>
    intro c c' h
    simp only [visitDeps] at h
    cases hft : findTask g d with
    | none => rw [hft] at h; cases h
    | some dt =>
      rw [hft] at h
      dsimp only at h
      obtain ⟨hdtg, hdtn⟩ := findTask_mem_name hft
      cases hcol : getColor c d with
      | gray => rw [hcol] at h; cases h
      | black =>
        rw [hcol] at h
        exact ih c c' h
      | white =>
        rw [hcol] at h
        dsimp only at h
        cases hvf : visitF c dt with
        | none => rw [hvf] at h; cases h
        | some r =>
          rw [hvf] at h
          cases r with
          | error e => cases h
          | ok c1 =>
            exact cmLE_trans (hFm c dt c1 (hdtn ▸ hcol) hvf) (ih c1 c' h)

lemma visit_mono {g : List Task} :
    ∀ fuel, VisitMonoProp g (visit g fuel) := by
  intro fuel
  induction fuel with
  | zero => intro c t c' _ h; cases h
  | succ fuel ih =>
    intro c t c' hw h
    simp only [visit] at h
    cases hvd : visitDeps (visit g fuel) g t
        (setColor c t.name Color.gray) t.deps with
    | none => rw [hvd] at h; cases h
    | some r =>
      rw [hvd] at h
      cases r with
      | error e => cases h
      | ok c2 =>
        simp only [Option.some.injEq, Except.ok.injEq] at h
        subst h
        have hm := visitDeps_mono ih t t.deps _ c2 hvd
        intro n
        by_cases hn : n = t.name
        · subst hn
          rw [getColor_set, if_pos rfl]
          cases getColor c t.name <;> simp [crank]
        · rw [getColor_set, if_neg hn]
          have h1 : getColor c n =
              getColor (setColor c t.name Color.gray) n := by
            rw [getColor_set, if_neg hn]
          rw [h1]
          exact hm n

/-- Fuel sufficiency for one `visit` call. -/
def VisitFuelProp (g : List Task) (fuel : Nat)
    (visitF : List (String × Color) → Task → Option (Except VErr (List (String × Color)))) :
    Prop :=
  ∀ c t, t ∈ g → getColor c t.name = Color.white →
    whiteCount g c < fuel → visitF c t ≠ none

lemma visitDeps_fuel {g : List Task} {fuel : Nat}
    {visitF : List (String × Color) → Task →
      Option (Except VErr (List (String × Color)))}
    (hFne : VisitFuelProp g fuel visitF) (hFm : VisitMonoProp g visitF)
    (t : Task) :
    ∀ (ds : List String) (c : List (String × Color)),
      (∀ d ∈ ds, (findTask g d).isSome = true) →
      whiteCount g c < fuel →
      visitDeps visitF g t c ds ≠ none := by
  intro ds
  induction ds with
  | nil => intro c _ _ h; cases h
  | cons d ds ih =>
    intro c hds hW h
    simp only [visitDeps] at h
    cases hft : findTask g d with
    | none =>
      have := hds d (List.mem_cons_self _ _)
      rw [hft] at this
      cases this
    | some dt =>
      rw [hft] at h
      dsimp only at h
      obtain ⟨hdtg, hdtn⟩ := findTask_mem_name hft
      cases hcol : getColor c d with
      | gray => rw [hcol] at h; cases h
      | black =>
        rw [hcol] at h
        exact ih c (fun x hx => hds x (List.mem_cons_of_mem _ hx)) hW h
      | white =>
        rw [hcol] at h
        dsimp only at h
        cases hvf : visitF c dt with
        | none =>
          exact hFne c dt hdtg (hdtn ▸ hcol) hW hvf
        | some r =>
          rw [hvf] at h
          cases r with
          | error e => cases h
          | ok c1 =>
            have hm := hFm c dt c1 (hdtn ▸ hcol) hvf
            exact ih c1 (fun x hx => hds x (List.mem_cons_of_mem _ hx))
              (lt_of_le_of_lt (whiteCount_le_of_cmLE hm) hW) h

lemma visit_fuel {g : List Task} (hc : closedB g = true) :
    ∀ fuel, VisitFuelProp g fuel (visit g fuel) := by
  intro fuel
  induction fuel with
  | zero => intro c t _ _ hW; omega
  | succ fuel ih =>
    intro c t ht hw hW h
    simp only [visit] at h
    have hname : t.name ∈ names g := List.mem_map_of_mem Task.name ht
    have hW1 : whiteCount g (setColor c t.name Color.gray) < fuel := by
      have h1 := whiteCount_gray_lt hname hw
      omega
    have hds : ∀ d ∈ t.deps, (findTask g d).isSome = true := by
      intro d hd
      obtain ⟨dt, hdt⟩ := closedB_findTask hc ht hd
      rw [hdt]
      rfl
    have hne := visitDeps_fuel ih (visit_mono fuel) t t.deps
      (setColor c t.name Color.gray) hds hW1
    cases hvd : visitDeps (visit g fuel) g t
        (setColor c t.name Color.gray) t.deps with
    | none => exact hne hvd
    | some r =>
      rw [hvd] at h
      cases r with
      | error e => cases h
      | ok c2 => cases h

lemma visitAll_fuel {g : List Task} (hc : closedB g = true) :
    ∀ (ts : List Task) (c : List (String × Color)),
      (∀ t ∈ ts, t ∈ g) →
      visitAll g (g.length + 1) c ts ≠ none := by
  intro ts
  induction ts with
  | nil => intro c _ h; cases h
  | cons t0 ts ih =>
    intro c hmem h
    simp only [visitAll] at h
    by_cases hwhite : getColor c t0.name == Color.white
    · rw [if_pos hwhite] at h
      cases hv : visit g (g.length + 1) c t0 with
      | none =>
        exact visit_fuel hc (g.length + 1) c t0
          (hmem t0 (List.mem_cons_self _ _)) (by simpa using hwhite)
          (Nat.lt_succ_of_le (whiteCount_le_len g c)) hv
      | some r =>
        rw [hv] at h
        cases r with
        | error e => cases h
        | ok c' =>
          exact ih c' (fun u hu => hmem u (List.mem_cons_of_mem _ hu)) h
    · rw [if_neg hwhite] at h
      exact ih c (fun u hu => hmem u (List.mem_cons_of_mem _ hu)) h

lemma detectCycle_total {g : List Task} (hc : closedB g = true) :
    detectCycle g ≠ none :=
  visitAll_fuel hc g [] (fun _ ht => ht)

lemma checkDup_none_iff :
    ∀ (ts : List Task) (seen : List String),
      checkDup ts seen = none ↔
        ((names ts).Nodup ∧ ∀ n ∈ names ts, n ∉ seen) := by
  intro ts
  induction ts with
  | nil => intro seen; simp [checkDup, names]
  | cons t ts ih =>
    intro seen
    simp only [checkDup]
    by_cases hcont : seen.contains t.name
    · rw [if_pos hcont]
      simp only [names, List.map_cons]
      constructor
      · intro h; cases h
      · rintro ⟨_, hall⟩
        exact absurd (List.mem_of_elem_eq_true hcont) (hall t.name (List.mem_cons_self _ _))
    · rw [if_neg hcont]
      rw [ih (t.name :: seen)]
      simp only [names, List.map_cons, List.nodup_cons]
      constructor
      · rintro ⟨hnd, hall⟩
        refine ⟨⟨?_, hnd⟩, ?_⟩
        · intro hmem
          exact (hall t.name hmem) (List.mem_cons_self _ _)
        · intro n hn
          rcases List.mem_cons.mp hn with hn | hn
          · subst hn
            intro hmem
            exact hcont (List.elem_eq_true_of_mem hmem)
          · intro hmem
            exact (hall n hn) (List.mem_cons_of_mem _ hmem)
      · rintro ⟨⟨hnotin, hnd⟩, hall⟩
        refine ⟨hnd, ?_⟩
        intro n hn hmem
        rcases List.mem_cons.mp hmem with hm | hm
        · exact hnotin (hm ▸ hn)
        · exact hall n (List.mem_cons_of_mem _ hn) hm

lemma checkDup_some :
    ∀ (ts : List Task) (seen : List String) (n : String),
      checkDup ts seen = some n →
      n ∈ names ts ∧ (n ∈ seen ∨ 2 ≤ (names ts).count n) := by
  intro ts
  induction ts with
  | nil => intro seen n h; cases h
  | cons t ts ih =>
    intro seen n h
    simp only [checkDup] at h
    by_cases hcont : seen.contains t.name
    · rw [if_pos hcont] at h
      cases h
      exact ⟨List.mem_cons_self _ _,
        Or.inl (List.mem_of_elem_eq_true hcont)⟩
    · rw [if_neg hcont] at h
      obtain ⟨hmem, hrest⟩ := ih (t.name :: seen) n h
      refine ⟨List.mem_cons_of_mem _ hmem, ?_⟩
      rcases hrest with hseen | hcount
      · rcases List.mem_cons.mp hseen with heq | hseen
        · right
          subst heq
          simp only [names, List.map_cons, List.count_cons_self] at hmem ⊢
          have h1 : 0 < (ts.map Task.name).count t.name :=
            List.count_pos_iff.mpr hmem
          omega
        · exact Or.inl hseen
      · right
        simp only [names, List.map_cons] at hcount ⊢
        rw [List.count_cons]
        omega

lemma no_deps_no_cycle {g : List Task} (h : ∀ t ∈ g, t.deps = []) :
    ¬ hasCycleG g := by
  rintro ⟨u, hcyc⟩
  obtain ⟨v, ⟨t, hft, hv⟩, _⟩ := Relation.TransGen.head'_iff.mp hcyc
  obtain ⟨htg, _⟩ := findTask_mem_name hft
  rw [h t htg] at hv
  cases hv

/-- C2: validation of a (closed) plan.  A plan with a duplicate name
fails with the duplicate-name error carrying a name that occurs at
least twice; a plan with unique names and a dependency cycle fails
with a cycle error naming an edge `u -> v` that lies on a cycle
(`v` reaches back to `u`); an acyclic plan with unique names
validates; and no plan with a cycle ever validates. -/
theorem c2_validation (g : List Task) (hc : closedB g = true) :
    (¬ (names g).Nodup →
      ∃ n, validateTasks g = some (some (VErr.dup n)) ∧
        2 ≤ (names g).count n) ∧
    ((names g).Nodup → hasCycleG g →
      ∃ u v, validateTasks g = some (some (VErr.cyc u v)) ∧
        edgeG g u v ∧ reachG g v u) ∧
    ((names g).Nodup → ¬ hasCycleG g → validateTasks g = some none) ∧
    (hasCycleG g → validateTasks g ≠ some none) := by
  have hdup_none : (names g).Nodup → checkDup g [] = none := by
    intro hnd
    exact (checkDup_none_iff g []).mpr ⟨hnd, fun n _ h => by cases h⟩
  have hmain : (names g).Nodup →
      (hasCycleG g →
        ∃ u v, validateTasks g = some (some (VErr.cyc u v)) ∧
          edgeG g u v ∧ reachG g v u) ∧
      (¬ hasCycleG g → validateTasks g = some none) := by
    intro hnd
    have hval : validateTasks g = detectCycle g := by
      unfold validateTasks
      rw [hdup_none hnd]
    cases hdc : detectCycle g with
    | none => exact absurd hdc (detectCycle_total hc)
    | some r =>
      cases r with
      | none =>
        constructor
        · intro hcyc
          exact absurd hcyc (detectCycle_ok_acyclic hnd hdc)
        · intro _
          rw [hval, hdc]
      | some e =>
        obtain ⟨u, v, he, hedge, hreach⟩ :=
          visitAll_err hnd (g.length + 1) g [] e
            (fun n hb => by simp [getColor, alookup] at hb)
            (fun n hg => by simp [getColor, alookup] at hg)
            (fun t ht => ht) hdc
        constructor
        · intro _
          exact ⟨u, v, by rw [hval, hdc, he], hedge, hreach⟩
        · intro hnocyc
          exact absurd ⟨u, Relation.TransGen.head' hedge hreach⟩ hnocyc
  refine ⟨?_, fun hnd => (hmain hnd).1, fun hnd => (hmain hnd).2, ?_⟩
  · intro hnotnd
    cases hcd : checkDup g [] with
    | none =>
      exact absurd ((checkDup_none_iff g []).mp hcd).1 hnotnd
    | some n =>
      obtain ⟨hmem, hrest⟩ := checkDup_some g [] n hcd
      rcases hrest with hseen | hcount
      · cases hseen
      · refine ⟨n, ?_, hcount⟩
        unfold validateTasks
        rw [hcd]
  · intro hcyc
    by_cases hnd : (names g).Nodup
    · obtain ⟨u, v, hval, _, _⟩ := (hmain hnd).1 hcyc
      rw [hval]
      simp
    · cases hcd : checkDup g [] with
      | none => exact absurd ((checkDup_none_iff g []).mp hcd).1 hnd
      | some n =>
        unfold validateTasks
        rw [hcd]
        simp

/-- Task `x` depending on `y`. -/
def xTask : Task := { name := "x", deps := ["y"] }

/-- Task `y` depending on `x`. -/
def yTask : Task := { name := "y", deps := ["x"] }

/-- A second task named `x`, with no dependencies. -/
def xDupTask : Task := { name := "x" }

/-- A plan with both a duplicate name and a dependency cycle. -/
def gBad : List Task := [xTask, yTask, xDupTask]

/-- C2 counterexample: a plan with a cycle need not fail with an error
naming an edge on the cycle — with a duplicate name present, `Validate`
fails with the duplicate-name error first, which names no edge. -/
theorem c2_dup_masks_cycle :
    closedB gBad = true ∧
    hasCycleG gBad ∧
    validateTasks gBad = some (some (VErr.dup "x")) ∧
    ∀ u v, VErr.dup "x" ≠ VErr.cyc u v := by
  refine ⟨by decide, ?_, rfl, fun u v h => VErr.noConfusion h⟩
  exact ⟨"x", Relation.TransGen.head
    (show edgeG gBad "x" "y" from ⟨xTask, rfl, by simp [xTask]⟩)
    (Relation.TransGen.single
      (show edgeG gBad "y" "x" from ⟨yTask, rfl, by simp [yTask]⟩))⟩

/-- Two distinct tasks sharing the name `x`. -/
def gDup : List Task := [xDupTask, { name := "x", requiresChange := true }]

/-- The two-task cycle plan. -/
def gCyc : List Task := [xTask, yTask]

/-- A single dependency-free task. -/
def gOne : List Task := [{ name := "z" }]

/-- Witness for C2 at concrete plans: a duplicate-name plan, a cyclic
unique-name plan, and an acyclic unique-name plan. -/
theorem c2_validation_witness :
    (closedB gDup = true ∧ ¬ (names gDup).Nodup ∧
      ∃ n, validateTasks gDup = some (some (VErr.dup n)) ∧
        2 ≤ (names gDup).count n) ∧
    (closedB gCyc = true ∧ (names gCyc).Nodup ∧ hasCycleG gCyc ∧
      ∃ u v, validateTasks gCyc = some (some (VErr.cyc u v)) ∧
        edgeG gCyc u v ∧ reachG gCyc v u) ∧
    (closedB gOne = true ∧ (names gOne).Nodup ∧ ¬ hasCycleG gOne ∧
      validateTasks gOne = some none) := by
  have hcyc : hasCycleG gCyc :=
    ⟨"x", Relation.TransGen.head
      (show edgeG gCyc "x" "y" from ⟨xTask, rfl, by simp [xTask]⟩)
      (Relation.TransGen.single
        (show edgeG gCyc "y" "x" from ⟨yTask, rfl, by simp [yTask]⟩))⟩
  have hnocyc : ¬ hasCycleG gOne := by
    apply no_deps_no_cycle
    intro t ht
    rcases List.mem_cons.mp ht with h | h
    · subst h; rfl
    · simp at h
  refine ⟨⟨by decide, by decide, ?_⟩, ⟨by decide, by decide, hcyc, ?_⟩,
    by decide, by decide, hnocyc, ?_⟩
  · exact (c2_validation gDup (by decide)).1 (by decide)
  · exact (c2_validation gCyc (by decide)).2.1 (by decide) hcyc
  · exact (c2_validation gOne (by decide)).2.2.1 (by decide) hnocyc

/-- `isChain g u ws`: starting at `u`, the names in `ws` are reached by
successive dependency edges. -/
def isChain (g : List Task) : String → List String → Prop
  | _, [] => True
  | u, w :: ws => edgeG g u w ∧ isChain g w ws

lemma chain_reach {g : List Task} :
    ∀ (ws : List String) (u x : String), isChain g u ws → x ∈ ws →
      Relation.TransGen (edgeG g) u x := by
  intro ws
  induction ws with
  | nil => intro u x _ hx; simp at hx
  | cons w ws ih =>
    intro u x ⟨hedge, hchain⟩ hx
    rcases List.mem_cons.mp hx with hx | hx
    · exact hx ▸ Relation.TransGen.single hedge
    · exact Relation.TransGen.head hedge (ih w x hchain hx)

lemma chain_nodup {g : List Task} (hacyc : ¬ hasCycleG g) :
    ∀ (ws : List String) (u : String), isChain g u ws → (u :: ws).Nodup := by
  intro ws
  induction ws with
  | nil => intro u _; simp
  | cons w ws ih =>
    intro u ⟨hedge, hchain⟩
    have htail : (w :: ws).Nodup := ih w hchain
    rw [List.nodup_cons]
    refine ⟨?_, htail⟩
    intro hu
    rcases List.mem_cons.mp hu with hu | hu
    · exact hacyc ⟨u, Relation.TransGen.single (hu ▸ hedge)⟩
    · exact hacyc ⟨u, Relation.TransGen.head hedge
        (chain_reach ws w u hchain hu)⟩

lemma edge_src_name {g : List Task} {u v : String} (h : edgeG g u v) :
    u ∈ names g := by
  obtain ⟨t, hft, _⟩ := h
  unfold findTask at hft
  have hm := List.mem_of_find?_eq_some hft
  have hp := List.find?_some hft
  have : t.name = u := by simpa using hp
  exact this ▸ List.mem_map_of_mem Task.name hm

lemma edge_dst_name {g : List Task} (hc : closedB g = true) {u v : String}
    (h : edgeG g u v) : v ∈ names g := by
  obtain ⟨t, hft, hv⟩ := h
  obtain ⟨htg, _⟩ := findTask_mem_name hft
  obtain ⟨dt, hdt⟩ := closedB_findTask hc htg hv
  obtain ⟨hdg, hdn⟩ := findTask_mem_name hdt
  exact hdn ▸ List.mem_map_of_mem Task.name hdg

lemma chain_mem_names {g : List Task} (hc : closedB g = true) :
    ∀ (ws : List String) (u : String), isChain g u ws →
      ∀ x ∈ ws, x ∈ names g := by
  intro ws
  induction ws with
  | nil => intro u _ x hx; simp at hx
  | cons w ws ih =>
    intro u ⟨hedge, hchain⟩ x hx
    rcases List.mem_cons.mp hx with hx | hx
    · exact hx ▸ edge_dst_name hc hedge
    · exact ih w hchain x hx

lemma chain_bound {g : List Task} (hacyc : ¬ hasCycleG g)
    (hc : closedB g = true) :
    ∀ (ws : List String) (u : String), isChain g u ws →
      ws.length < g.length + 1 := by
  intro ws u hchain
  cases ws with
  | nil => simp
  | cons w ws' =>
    have hnd := chain_nodup hacyc (w :: ws') u hchain
    have hsub : u :: w :: ws' ⊆ names g := by
      intro x hx
      rcases List.mem_cons.mp hx with hx | hx
      · exact hx ▸ edge_src_name hchain.1
      · exact chain_mem_names hc (w :: ws') u hchain x hx
    have hle : (u :: w :: ws').length ≤ (names g).length :=
      (List.subperm_of_subset hnd hsub).length_le
    simp only [List.length_cons, names, List.length_map] at hle ⊢
    omega

lemma maxDepLevel_fuel {g : List Task} (fuel0 : Nat)
    {clF : List (String × Nat) → Task → Option (Nat × List (String × Nat))}
    (hF : ∀ m t, t ∈ g → (∀ ws, isChain g t.name ws → ws.length < fuel0) →
      clF m t ≠ none) :
    ∀ (ds : List String) (m : List (String × Nat)),
      (∀ d ∈ ds, ∃ dt, findTask g d = some dt) →
      (∀ d ∈ ds, ∀ ws, isChain g d ws → ws.length < fuel0) →
      maxDepLevel clF g m ds ≠ none := by
  intro ds
  induction ds with
  | nil => intro m _ _ h; cases h
  | cons d ds ih =>
    intro m hds hbound h
    simp only [maxDepLevel] at h
    obtain ⟨dt, hdt⟩ := hds d (List.mem_cons_self _ _)
    rw [hdt] at h
    dsimp only at h
    obtain ⟨hdg, hdn⟩ := findTask_mem_name hdt
    cases hcl : clF m dt with
    | none =>
      exact hF m dt hdg (hdn ▸ hbound d (List.mem_cons_self _ _)) hcl
    | some r =>
      rw [hcl] at h
      dsimp only at h
      cases hmd : maxDepLevel clF g r.2 ds with
      | none =>
        exact ih r.2 (fun x hx => hds x (List.mem_cons_of_mem _ hx))
          (fun x hx => hbound x (List.mem_cons_of_mem _ hx)) hmd
      | some r2 =>
        rw [hmd] at h
        dsimp only at h
        cases h

lemma computeLevel_fuel {g : List Task} (hnd : (names g).Nodup)
    (hc : closedB g = true) :
    ∀ (fuel : Nat) (m : List (String × Nat)) (t : Task), t ∈ g →
      (∀ ws, isChain g t.name ws → ws.length < fuel) →
      computeLevel g fuel m t ≠ none := by
  intro fuel
  induction fuel with
  | zero =>
    intro m t _ hbound _
    exact absurd (hbound [] trivial) (by simp)
  | succ fuel ih =>
    intro m t ht hbound h
    simp only [computeLevel] at h
    cases hal : alookup m t.name with
    | some l => rw [hal] at h; cases h
    | none =>
      rw [hal] at h
      dsimp only at h
      have hself : findTask g t.name = some t := findTask_of_nodup hnd ht
      have hclosed : ∀ d ∈ t.deps, ∃ dt, findTask g d = some dt :=
        fun d hd => closedB_findTask hc ht hd
      have hsub : ∀ d ∈ t.deps, ∀ ws, isChain g d ws → ws.length < fuel := by
        intro d hd ws hch
        have hlong : isChain g t.name (d :: ws) := ⟨⟨t, hself, hd⟩, hch⟩
        have := hbound (d :: ws) hlong
        simp only [List.length_cons] at this
        omega
      cases hmd : maxDepLevel (computeLevel g fuel) g m t.deps with
      | none =>
        exact maxDepLevel_fuel fuel (fun m' t' ht' hb' => ih m' t' ht' hb')
          t.deps m hclosed hsub hmd
      | some r =>
        rw [hmd] at h
        dsimp only at h
        cases h

lemma alookup_mem {α : Type} {m : List (String × α)} {n : String} {l : α}
    (h : alookup m n = some l) : (n, l) ∈ m := by
  unfold alookup at h
  cases hf : m.find? (fun e => e.1 == n) with
  | none => rw [hf] at h; cases h
  | some e =>
    rw [hf] at h
    have hm := List.mem_of_find?_eq_some hf
    have hp := List.find?_some hf
    simp only [beq_iff_eq] at hp
    cases h
    cases e
    cases hp
    exact hm

lemma alookup_eq_none {α : Type} {m : List (String × α)} {n : String}
    (h : alookup m n = none) : n ∉ m.map Prod.fst := by
  intro hmem
  obtain ⟨e, he, hen⟩ := List.mem_map.mp hmem
  unfold alookup at h
  cases hf : m.find? (fun e => e.1 == n) with
  | some _ => rw [hf] at h; cases h
  | none =>
    have := List.find?_eq_none.mp hf e he
    simp only [beq_iff_eq] at this
    exact this hen

lemma alookup_of_mem_nodup {α : Type} {m : List (String × α)}
    (hnd : (m.map Prod.fst).Nodup) {n : String} {l : α}
    (hmem : (n, l) ∈ m) : alookup m n = some l := by
  induction m with
  | nil => cases hmem
  | cons e m ih =>
    simp only [List.map_cons, List.nodup_cons] at hnd
    rcases List.mem_cons.mp hmem with h | h
    · subst h
      simp [alookup]
    · have hne : e.1 ≠ n := by
        intro he
        exact hnd.1 (he ▸ List.mem_map.mpr ⟨(n, l), h, rfl⟩)
      have hrec := ih hnd.2 h
      unfold alookup at hrec ⊢
      rw [List.find?_cons_of_neg _ (by simpa using hne)]
      exact hrec

/-- The `maxDep` fold of runner.go:505-514 over a list of (natural)
dependency levels: the maximum as an `Int`, starting at `-1`. -/
def intMax (ls : List Nat) : Int :=
  (ls.map Int.ofNat).foldr max (-1)

/-- The memo invariant of `levelize`: an entry records a task of the
plan whose level satisfies the `maxDep + 1` recurrence of
runner.go:505-516 over the (already memoized) levels of its
dependencies. -/
def entryOK (g : List Task) (m : List (String × Nat)) (n : String)
    (l : Nat) : Prop :=
  ∃ t, findTask g n = some t ∧
    ∃ ls : List Nat,
      List.Forall₂ (fun d ld => alookup m d = some ld) t.deps ls ∧
      l = (intMax ls + 1).toNat

def MemoInv (g : List Task) (m : List (String × Nat)) : Prop :=
  (m.map Prod.fst).Nodup ∧ ∀ e ∈ m, entryOK g m e.1 e.2

lemma entryOK_mono {g : List Task} {m m' : List (String × Nat)}
    (hnd : (m'.map Prod.fst).Nodup) (hsub : ∀ e ∈ m, e ∈ m')
    {n : String} {l : Nat} (h : entryOK g m n l) : entryOK g m' n l := by
  obtain ⟨t, hft, ls, hfa, hl⟩ := h
  exact ⟨t, hft, ls,
    hfa.imp (fun d ld hd =>
      alookup_of_mem_nodup hnd (hsub _ (alookup_mem hd))),
    hl⟩

lemma maxDepLevel_invariant {g : List Task}
    {clF : List (String × Nat) → Task → Option (Nat × List (String × Nat))}
    (hF : ∀ m t l m2, t ∈ g → MemoInv g m → clF m t = some (l, m2) →
      MemoInv g m2 ∧ m <:+ m2 ∧ alookup m2 t.name = some l ∧
      (∀ n ∈ m2.map Prod.fst, n ∈ m.map Prod.fst ∨ reachG g t.name n)) :
    ∀ (ds : List String) (m : List (String × Nat)) (v : Int)
      (m2 : List (String × Nat)),
      MemoInv g m →
      maxDepLevel clF g m ds = some (v, m2) →
      MemoInv g m2 ∧ m <:+ m2 ∧
      (∃ ls : List Nat,
        List.Forall₂ (fun d ld => alookup m2 d = some ld) ds ls ∧
        v = intMax ls) ∧
      (∀ n ∈ m2.map Prod.fst, n ∈ m.map Prod.fst ∨
        ∃ d ∈ ds, reachG g d n) := by
  intro ds
  induction ds with
  | nil =>
    intro m v m2 hinv h
    simp only [maxDepLevel, Option.some.injEq, Prod.mk.injEq] at h
    obtain ⟨hv, hm⟩ := h
    subst hv hm
    exact ⟨hinv, List.suffix_refl m, ⟨[], List.Forall₂.nil, rfl⟩,
      fun n hn => Or.inl hn⟩
  | cons d ds ih =>
    intro m v m2 hinv h
    simp only [maxDepLevel] at h
    cases hft : findTask g d with
    | none => rw [hft] at h; cases h
    | some dt =>
      rw [hft] at h
      dsimp only at h
      cases hcl : clF m dt with
      | none => rw [hcl] at h; cases h
      | some r =>
        rw [hcl] at h
        dsimp only at h
        cases hmd : maxDepLevel clF g r.2 ds with
        | none => rw [hmd] at h; cases h
        | some r2 =>
          rw [hmd] at h
          dsimp only at h
          simp only [Option.some.injEq, Prod.mk.injEq] at h
          obtain ⟨hv, hm⟩ := h
          obtain ⟨hinv1, hsuf1, hlook1, hkeys1⟩ :=
            hF m dt r.1 r.2 (findTask_mem_name hft).1 hinv (by rw [hcl])
          obtain ⟨hinv2, hsuf2, ⟨ls2, hfa2, hv2⟩, hkeys2⟩ :=
            ih r.2 r2.1 r2.2 hinv1 (by rw [hmd])
          subst hv hm
          refine ⟨hinv2, hsuf1.trans hsuf2, ⟨r.1 :: ls2, ?_, ?_⟩, ?_⟩
          · refine List.Forall₂.cons ?_ hfa2
            have hmem : (dt.name, r.1) ∈ r.2 := alookup_mem hlook1
            have hal :=
              alookup_of_mem_nodup hinv2.1 (hsuf2.subset hmem)
            rwa [(findTask_mem_name hft).2] at hal
          · simp only [intMax, List.map_cons, List.foldr_cons]
            rw [show intMax ls2 = (ls2.map Int.ofNat).foldr max (-1) from rfl]
              at hv2
            rw [hv2]
            rfl
          · intro n hn
            rcases hkeys2 n hn with h2 | ⟨d2, hd2, hr⟩
            · rcases hkeys1 n h2 with h1 | hr
              · exact Or.inl h1
              · exact Or.inr ⟨d, List.mem_cons_self _ _,
                  (findTask_mem_name hft).2 ▸ hr⟩
            · exact Or.inr ⟨d2, List.mem_cons_of_mem _ hd2, hr⟩

lemma computeLevel_invariant {g : List Task} (hnd : (names g).Nodup)
    (hacyc : ¬ hasCycleG g) :
    ∀ (fuel : Nat) (m : List (String × Nat)) (t : Task) (l : Nat)
      (m2 : List (String × Nat)), t ∈ g → MemoInv g m →
      computeLevel g fuel m t = some (l, m2) →
      MemoInv g m2 ∧ m <:+ m2 ∧ alookup m2 t.name = some l ∧
      (∀ n ∈ m2.map Prod.fst, n ∈ m.map Prod.fst ∨ reachG g t.name n) := by
  intro fuel
  induction fuel with
  | zero => intro m t l m2 _ _ h; cases h
  | succ fuel ih =>
    intro m t l m2 ht hinv h
    simp only [computeLevel] at h
    cases hal : alookup m t.name with
    | some l0 =>
      rw [hal] at h
      dsimp only at h
      simp only [Option.some.injEq, Prod.mk.injEq] at h
      obtain ⟨hl, hm⟩ := h
      subst hl hm
      exact ⟨hinv, List.suffix_refl m, hal, fun n hn => Or.inl hn⟩
    | none =>
      rw [hal] at h
      dsimp only at h
      cases hmd : maxDepLevel (computeLevel g fuel) g m t.deps with
      | none => rw [hmd] at h; cases h
      | some r =>
        rw [hmd] at h
        dsimp only at h
        simp only [Option.some.injEq, Prod.mk.injEq] at h
        obtain ⟨hl, hm⟩ := h
        obtain ⟨hinv1, hsuf1, ⟨ls, hfa, hvls⟩, hkeys1⟩ :=
          maxDepLevel_invariant (fun m0 t0 l0 m02 => ih m0 t0 l0 m02)
            t.deps m r.1 r.2 hinv (by rw [hmd])
        have hfresh : t.name ∉ r.2.map Prod.fst := by
          intro hmem
          rcases hkeys1 t.name hmem with hin | ⟨d, hd, hr⟩
          · exact alookup_eq_none hal hin
          · exact hacyc ⟨t.name, Relation.TransGen.head'_iff.mpr
              ⟨d, ⟨t, findTask_of_nodup hnd ht, hd⟩, hr⟩⟩
        subst hl hm
        have hndk : (((t.name, (r.1 + 1).toNat) :: r.2).map Prod.fst).Nodup :=
          List.nodup_cons.mpr ⟨hfresh, hinv1.1⟩
        have hsubm : ∀ e ∈ r.2, e ∈ (t.name, (r.1 + 1).toNat) :: r.2 :=
          fun e he => List.mem_cons_of_mem _ he
        refine ⟨⟨hndk, ?_⟩, hsuf1.trans (List.suffix_cons _ _), ?_, ?_⟩
        · intro e he
          rcases List.mem_cons.mp he with he | he
          · subst he
            refine ⟨t, findTask_of_nodup hnd ht, ls,
              hfa.imp (fun d ld hd =>
                alookup_of_mem_nodup hndk (hsubm _ (alookup_mem hd))), ?_⟩
            dsimp only
            rw [hvls]
          · exact entryOK_mono hndk hsubm (hinv1.2 e he)
        · simp [alookup]
        · intro n hn
          simp only [List.map_cons, List.mem_cons] at hn
          rcases hn with hn | hn
          · exact Or.inr (hn ▸ Relation.ReflTransGen.refl)
          · rcases hkeys1 n hn with h1 | ⟨d, hd, hr⟩
            · exact Or.inl h1
            · exact Or.inr (Relation.ReflTransGen.head
                ⟨t, findTask_of_nodup hnd ht, hd⟩ hr)

lemma computeAll_total {g : List Task} (hnd : (names g).Nodup)
    (hacyc : ¬ hasCycleG g) (hc : closedB g = true) :
    ∀ (ts : List Task) (m : List (String × Nat)) (mx : Nat),
      (∀ t ∈ ts, t ∈ g) → computeAll g (g.length + 1) ts m mx ≠ none := by
  intro ts
  induction ts with
  | nil => intro m mx _ h; cases h
  | cons t ts ih =>
    intro m mx hts h
    simp only [computeAll] at h
    cases hcl : computeLevel g (g.length + 1) m t with
    | none =>
      exact computeLevel_fuel hnd hc (g.length + 1) m t
        (hts t (List.mem_cons_self _ _))
        (fun ws hws => chain_bound hacyc hc ws t.name hws) hcl
    | some r =>
      rw [hcl] at h
      dsimp only at h
      exact ih r.2 (if r.1 > mx then r.1 else mx)
        (fun u hu => hts u (List.mem_cons_of_mem _ hu)) h

lemma computeAll_invariant {g : List Task} (hnd : (names g).Nodup)
    (hacyc : ¬ hasCycleG g) (fuel : Nat) :
    ∀ (ts : List Task) (m : List (String × Nat)) (mx : Nat)
      (res : List (String × Nat) × Nat),
      (∀ t ∈ ts, t ∈ g) → MemoInv g m →
      computeAll g fuel ts m mx = some res →
      MemoInv g res.1 ∧ m <:+ res.1 ∧ mx ≤ res.2 ∧
      (∀ t ∈ ts, ∃ l, alookup res.1 t.name = some l ∧ l ≤ res.2) := by
  intro ts
  induction ts with
  | nil =>
    intro m mx res _ hinv h
    simp only [computeAll, Option.some.injEq] at h
    subst h
    exact ⟨hinv, List.suffix_refl m, Nat.le_refl mx, fun t ht => absurd ht
      (by simp)⟩
  | cons t ts ih =>
    intro m mx res hts hinv h
    simp only [computeAll] at h
    cases hcl : computeLevel g fuel m t with
    | none => rw [hcl] at h; cases h
    | some r =>
      rw [hcl] at h
      dsimp only at h
      obtain ⟨hinv1, hsuf1, hlook1, _⟩ :=
        computeLevel_invariant hnd hacyc fuel m t r.1 r.2
          (hts t (List.mem_cons_self _ _)) hinv (by rw [hcl])
      obtain ⟨hinv2, hsuf2, hmx2, hts2⟩ :=
        ih r.2 (if r.1 > mx then r.1 else mx) res
          (fun u hu => hts u (List.mem_cons_of_mem _ hu)) hinv1 h
      refine ⟨hinv2, hsuf1.trans hsuf2, ?_, ?_⟩
      · refine le_trans ?_ hmx2
        split <;> omega
      · intro u hu
        rcases List.mem_cons.mp hu with hu | hu
        · subst hu
          refine ⟨r.1, alookup_of_mem_nodup hinv2.1
            (hsuf2.subset (alookup_mem hlook1)), le_trans ?_ hmx2⟩
          split <;> omega
        · exact hts2 u hu

lemma le_foldr_max : ∀ (ls : List Nat), ∀ x ∈ ls, x ≤ ls.foldr Nat.max 0 := by
  intro ls
  induction ls with
  | nil => intro x hx; cases hx
  | cons a ls ih =>
    intro x hx
    rcases List.mem_cons.mp hx with hx | hx
    · subst hx
      exact Nat.le_max_left _ _
    · exact le_trans (ih x hx) (Nat.le_max_right _ _)

lemma intMax_eq :
    ∀ (ls : List Nat), ls ≠ [] →
      intMax ls = Int.ofNat (ls.foldr Nat.max 0) := by
  intro ls
  induction ls with
  | nil => intro h; exact absurd rfl h
  | cons a ls ih =>
    intro _
    simp only [intMax, List.map_cons, List.foldr_cons]
    cases ls with
    | nil =>
      simp only [List.map_nil, List.foldr_nil, Int.ofNat_eq_natCast,
        Nat.cast_max]
      omega
    | cons b ls =>
      rw [show (((b :: ls).map Int.ofNat).foldr max (-1)) =
        intMax (b :: ls) from rfl, ih (by simp)]
      simp only [Int.ofNat_eq_natCast, Nat.cast_max]

lemma forall2_mem_left {α β : Type} {R : α → β → Prop} :
    ∀ {l1 : List α} {l2 : List β}, List.Forall₂ R l1 l2 →
      ∀ a ∈ l1, ∃ b ∈ l2, R a b := by
  intro l1
  induction l1 with
  | nil => intro l2 _ a ha; cases ha
  | cons x l1 ih =>
    intro l2 hfa a ha
    cases hfa with
    | cons hR hrest =>
      rcases List.mem_cons.mp ha with ha | ha
      · subst ha
        exact ⟨_, List.mem_cons_self _ _, hR⟩
      · obtain ⟨b, hb, hRb⟩ := ih hrest a ha
        exact ⟨b, List.mem_cons_of_mem _ hb, hRb⟩
/-- C1: for every validated (duplicate-free, acyclic) plan whose
dependency names resolve, `levelize` computes a memo assigning every
task a wave: a task with no dependencies is at wave 0, every other task
at 1 + the maximum wave of its dependencies (so each dependency lies at
a strictly earlier wave); the waves returned are exactly the tasks at
levels `0 .. maxLevel`, every task belongs to exactly one wave, and
each wave lists its tasks in plan insertion order (a sublist of the
plan). -/
theorem c1_levelize (g : List Task)
    (hv : validateTasks g = some none) (hcl : closedB g = true) :
    ∃ memo maxLevel,
      computeAll g (g.length + 1) g [] 0 = some (memo, maxLevel) ∧
      levelize g = some ((List.range (maxLevel + 1)).map
        (fun l => g.filter (fun t => alookup memo t.name == some l))) ∧
      (∀ t ∈ g, ∀ l, alookup memo t.name = some l →
        ((t.deps = [] → l = 0) ∧
         (t.deps ≠ [] → ∃ ls, List.Forall₂
             (fun d ld => alookup memo d = some ld) t.deps ls ∧
           l = ls.foldr Nat.max 0 + 1) ∧
         (∀ d ∈ t.deps, ∀ ld, alookup memo d = some ld → ld < l))) ∧
      (∀ t ∈ g, ∃! l, l ≤ maxLevel ∧
        t ∈ g.filter (fun u => alookup memo u.name == some l)) ∧
      (∀ l, (g.filter (fun t => alookup memo t.name == some l)).Sublist g)
    := by
  have hvd : checkDup g [] = none ∧ detectCycle g = some none := by
    unfold validateTasks at hv
    cases hd : checkDup g [] with
    | some n => rw [hd] at hv; simp at hv
    | none => rw [hd] at hv; exact ⟨rfl, hv⟩
  obtain ⟨hdup, hdet⟩ := hvd
  have hnd : (names g).Nodup := ((checkDup_none_iff g []).mp hdup).1
  have hacyc : ¬ hasCycleG g := detectCycle_ok_acyclic hnd hdet
  cases hca : computeAll g (g.length + 1) g [] 0 with
  | none =>
    exact absurd hca (computeAll_total hnd hacyc hcl g [] 0 (fun t ht => ht))
  | some res =>
    obtain ⟨hinv, _, _, hall⟩ :=
      computeAll_invariant hnd hacyc (g.length + 1) g [] 0 res
        (fun t ht => ht)
        ⟨List.nodup_nil, fun e he => absurd he (List.not_mem_nil e)⟩ hca
    refine ⟨res.1, res.2, rfl, ?_, ?_, ?_, ?_⟩
    · unfold levelize
      rw [hca]
    · intro t ht l hl
      obtain ⟨t2, hft2, ls, hfa, hlf⟩ := hinv.2 _ (alookup_mem hl)
      have hft2a : findTask g t.name = some t2 := hft2
      have hlfa : l = (intMax ls + 1).toNat := hlf
      have hft : findTask g t.name = some t := findTask_of_nodup hnd ht
      rw [hft] at hft2a
      have ht2 : t2 = t := (Option.some.inj hft2a).symm
      subst ht2
      have hform : t2.deps ≠ [] → l = ls.foldr Nat.max 0 + 1 := by
        intro hne
        have hlsne : ls ≠ [] := by
          intro h0
          rw [h0] at hfa
          exact hne (List.forall₂_nil_right_iff.mp hfa)
        rw [hlfa, intMax_eq ls hlsne, Int.ofNat_eq_natCast]
        omega
      refine ⟨?_, fun hne => ⟨ls, hfa, hform hne⟩, ?_⟩
      · intro hde
        rw [hde] at hfa
        have hls0 : ls = [] := List.forall₂_nil_left_iff.mp hfa
        rw [hlfa, hls0]
        rfl
      · intro d hd ld hld
        obtain ⟨ld2, hld2, hR⟩ := forall2_mem_left hfa d hd
        have hee : ld = ld2 := Option.some.inj ((hld.symm).trans hR)
        have hne : t2.deps ≠ [] := by
          intro h0
          rw [h0] at hd
          cases hd
        have := le_foldr_max ls ld2 hld2
        rw [hform hne]
        omega
    · intro t ht
      obtain ⟨l, hlook, hle⟩ := hall t ht
      refine ⟨l, ⟨hle, List.mem_filter.mpr ⟨ht, by rw [hlook]; simp⟩⟩, ?_⟩
      rintro y ⟨_, hy2⟩
      have hp := (List.mem_filter.mp hy2).2
      rw [hlook] at hp
      exact (Option.some.inj (beq_iff_eq.mp hp)).symm
    · intro l
      exact List.filter_sublist g

/-- A three-task diamond-ish plan for the C1 witness: `a` free, `b`
after `a`, `c` after both. -/
def gW : List Task :=
  [{ name := "a" }, { name := "b", deps := ["a"] },
   { name := "c", deps := ["a", "b"] }]

/-- Witness for C1 at a concrete validated plan. -/
theorem c1_levelize_witness :
    validateTasks gW = some none ∧ closedB gW = true ∧
    (∃ memo maxLevel,
      computeAll gW (gW.length + 1) gW [] 0 = some (memo, maxLevel) ∧
      levelize gW = some ((List.range (maxLevel + 1)).map
        (fun l => gW.filter (fun t => alookup memo t.name == some l))) ∧
      (∀ t ∈ gW, ∀ l, alookup memo t.name = some l →
        ((t.deps = [] → l = 0) ∧
         (t.deps ≠ [] → ∃ ls, List.Forall₂
             (fun d ld => alookup memo d = some ld) t.deps ls ∧
           l = ls.foldr Nat.max 0 + 1) ∧
         (∀ d ∈ t.deps, ∀ ld, alookup memo d = some ld → ld < l))) ∧
      (∀ t ∈ gW, ∃! l, l ≤ maxLevel ∧
        t ∈ gW.filter (fun u => alookup memo u.name == some l)) ∧
      (∀ l, (gW.filter (fun t => alookup memo t.name == some l)).Sublist gW))
    := ⟨rfl, rfl, c1_levelize gW rfl rfl⟩

lemma runBody_failed_mono (p : Plan) (st : RState) (t : Task) {n : String}
    (hn : n ∈ st.failed) : n ∈ (runBody p st t).st.failed := by
  unfold runBody
  dsimp only
  split
  · exact List.mem_cons_of_mem _ hn
  · exact hn

lemma runTask_failed_mono (p : Plan) (st : RState) (t : Task) {n : String}
    (hn : n ∈ st.failed) : n ∈ (runTask p st t).st.failed := by
  unfold runTask
  split
  · exact List.mem_cons_of_mem _ hn
  · split
    · exact hn
    · split
      · exact hn
      · exact runBody_failed_mono p st t hn

lemma runLevelTasks_failed_mono (p : Plan) :
    ∀ (ts : List Task) (st : RState) (n : String), n ∈ st.failed →
      n ∈ (runLevelTasks p st ts).2.1.failed := by
  intro ts
  induction ts with
  | nil => intro st n hn; exact hn
  | cons t ts ih =>
    intro st n hn
    simp only [runLevelTasks]
    exact ih _ n (runTask_failed_mono p st t hn)

lemma runLevels_failed_mono (p : Plan) :
    ∀ (lvls : List (List Task)) (i : Nat) (st : RState) (n : String),
      n ∈ st.failed → n ∈ (runLevels p i st lvls).2.1.failed := by
  intro lvls
  induction lvls with
  | nil => intro i st n hn; exact hn
  | cons lvl rest ih =>
    intro i st n hn
    simp only [runLevels]
    split
    · exact runLevelTasks_failed_mono p lvl st n hn
    · exact ih (i + 1) _ n (runLevelTasks_failed_mono p lvl st n hn)

/-- The C4 scenario plan: default policy `continue`, `a` fails, `b`
after `a`, `c` after `b`, `d` independent and changing. -/
def pC4 : Plan :=
  { client := none
    tasks :=
      [{ name := "a", fn := some (fun _ => Except.error "boom") },
       { name := "b", deps := ["a"],
         fn := some (fun _ => Except.ok { changed := true }) },
       { name := "c", deps := ["b"],
         fn := some (fun _ => Except.ok { changed := true }) },
       { name := "d", fn := some (fun _ => Except.ok { changed := true }) }]
    config := { onErrorStrategy := Continue } }

/-- C4: a task with a failed direct dependency is recorded SKIPPED with
reason "dependency failed" and is added to the failed set (so its own
dependents are skipped in turn); the failed set only grows across the
run, which propagates the effect transitively; and in the concrete
continue-policy scenario (`a` fails; `b` after `a`; `c` after `b`; `d`
independent and changing) the run reports a=FAILED, b=SKIPPED,
c=SKIPPED, d=CHANGED over 4 tasks with no error, with both skips
carrying the "dependency failed" reason. -/
theorem c4_transitive_skip :
    (∀ (p : Plan) (st : RState) (t : Task), depFailed st t = true →
      runTask p st t =
        { tr := { name := t.name, status := Status.skipped }
          st := { st with failed := t.name :: st.failed }
          evs := [Event.onSkip t.name "dependency failed",
            Event.afterTask t.name { name := t.name, status := Status.skipped }]
          calls := 0 }) ∧
    (∀ (p : Plan) (lvls : List (List Task)) (i : Nat) (st : RState)
      (n : String), n ∈ st.failed →
        n ∈ (runLevels p i st lvls).2.1.failed) ∧
    (∃ trs evs, planRun pC4 = some (some trs, evs, none) ∧
      trs.length = 4 ∧
      reportStatus trs "a" = some Status.failed ∧
      reportStatus trs "b" = some Status.skipped ∧
      reportStatus trs "c" = some Status.skipped ∧
      reportStatus trs "d" = some Status.changed ∧
      Event.onSkip "b" "dependency failed" ∈ evs ∧
      Event.onSkip "c" "dependency failed" ∈ evs) := by
  refine ⟨?_, runLevels_failed_mono, ?_⟩
  · intro p st t hdf
    unfold runTask
    rw [if_pos hdf]
    rfl
  · refine ⟨_, _, rfl, rfl, rfl, rfl, rfl, rfl, ?_, ?_⟩ <;> decide

/-- Witness for C4: a concrete failed-dependency state, task, and run. -/
theorem c4_transitive_skip_witness :
    depFailed { results := [], failed := ["a"] }
      { name := "b", deps := ["a"] } = true ∧
    (runTask pC4 { results := [], failed := ["a"] }
      { name := "b", deps := ["a"] }).st.failed = ["b", "a"] ∧
    "a" ∈ (runLevels pC4 0 { results := [], failed := ["a"] } []).2.1.failed :=
  ⟨rfl,
   by rw [c4_transitive_skip.1 pC4 { results := [], failed := ["a"] }
     { name := "b", deps := ["a"] } rfl],
   c4_transitive_skip.2.1 pC4 [] 0 { results := [], failed := ["a"] } "a"
     (List.mem_cons_self _ _)⟩
